import Mathlib

/-
  Verification of the zuu fixed-capacity string library (zuu_fstring).

  The development shallowly embeds the two string classes of the repository
  (zuu::basic_fstring of include/zuu/core/core.hpp and zuu::string of
  constant_string_class.hpp) and the algorithm suite the claims mention.
  Code units are modelled as Nat; the raw character array of a string
  object is a Lean list of cap + 1 units together with the tracked length.
  The helpers of the missing header constant_string_detail.hpp
  (memcpy_string, memmove_string, memset_string, is_space) are modelled
  from the specification: the copy helpers copy count units with the
  source range read before writing, and is_space tests the six whitespace
  characters named by the specification.
-/

namespace Zuu

/-- Write the values of vs into l one element at a time starting at index
i, mirroring the memcpy, memmove and fill loops over a raw character
array; each use in this development stays within the array bounds. -/
def storeMany (l : List Nat) (i : Nat) (vs : List Nat) : List Nat :=
  match vs with
  | [] => l
  | v :: rest => storeMany (l.set i v) (i + 1) rest

/-- Clamped push used when building a token or result buffer through
push_back: append one unit only when the buffer is not yet full. -/
def pushCapped (cap : Nat) (cur : List Nat) (c : Nat) : List Nat :=
  if cur.length < cap then cur ++ [c] else cur

/-- Raw state of a fixed-capacity string object: the capacity template
argument, the underlying array of cap + 1 code units, and the tracked
length member. -/
structure Buf where
  cap : Nat
  buf : List Nat
  len : Nat
deriving DecidableEq

/-- Invariant of both string classes: the array has cap + 1 slots, the
length never exceeds the capacity, and the unit at index len is the zero
terminator. -/
def wf (b : Buf) : Prop :=
  b.buf.length = b.cap + 1 ∧ b.len ≤ b.cap ∧ b.buf.getD b.len 0 = 0

instance (b : Buf) : Decidable (wf b) := by
  unfold wf; infer_instance

/-- Logical content of a buffer: the first len units of the array. -/
def content (b : Buf) : List Nat := b.buf.take b.len

namespace bfs

/-- Default constructor of basic_fstring: value-initialised array, size 0. -/
def mkEmpty (cap : Nat) : Buf := ⟨cap, List.replicate (cap + 1) 0, 0⟩

/-- Constructor of basic_fstring from a character-array literal of extent
arr.length: size is min(Cap, N - 1), then copy_n and set_null_terminator. -/
def fromLiteral (cap : Nat) (arr : List Nat) : Buf :=
  let sz := min cap (arr.length - 1)
  ⟨cap, (storeMany (List.replicate (cap + 1) 0) 0 (arr.take sz)).set sz 0, sz⟩

/-- Constructor of basic_fstring from a non-null pointer plus length. -/
def fromPtrLen (cap : Nat) (src : List Nat) (n : Nat) : Buf :=
  let sz := min cap n
  ⟨cap, (storeMany (List.replicate (cap + 1) 0) 0 (src.take sz)).set sz 0, sz⟩

/-- Fill constructor of basic_fstring. -/
def fill (cap : Nat) (count ch : Nat) : Buf :=
  let sz := min cap count
  ⟨cap, (storeMany (List.replicate (cap + 1) 0) 0 (List.replicate sz ch)).set sz 0, sz⟩

/-- basic_fstring::clear. -/
def clear (b : Buf) : Buf := ⟨b.cap, b.buf.set 0 0, 0⟩

/-- basic_fstring::push_back: silently a no-op on a full buffer. -/
def push_back (b : Buf) (ch : Nat) : Buf :=
  if b.len = b.cap then b
  else ⟨b.cap, (b.buf.set b.len ch).set (b.len + 1) 0, b.len + 1⟩

/-- basic_fstring::pop_back. -/
def pop_back (b : Buf) : Buf :=
  if b.len = 0 then b else ⟨b.cap, b.buf.set (b.len - 1) 0, b.len - 1⟩

/-- basic_fstring::resize. -/
def resize (b : Buf) (newSize ch : Nat) : Buf :=
  let ns := min newSize b.cap
  let buf1 := if b.len < ns then storeMany b.buf b.len (List.replicate (ns - b.len) ch) else b.buf
  ⟨b.cap, buf1.set ns 0, ns⟩

/-- basic_fstring::append(str, len): a no-op when full, otherwise clamp the
count to available(), copy, bump the size and terminate; the source
pointer is assumed non-null. -/
def append (b : Buf) (src : List Nat) (n : Nat) : Buf :=
  if b.len = b.cap then b
  else
    let k := min n (b.cap - b.len)
    ⟨b.cap, (storeMany b.buf b.len (src.take k)).set (b.len + k) 0, b.len + k⟩

/-- basic_fstring::append(count, ch): the fill variant, with no full() guard. -/
def appendFill (b : Buf) (count ch : Nat) : Buf :=
  let k := min count (b.cap - b.len)
  ⟨b.cap, (storeMany b.buf b.len (List.replicate k ch)).set (b.len + k) 0, b.len + k⟩

/-- Window comparison of the inner loop of basic_fstring::find: the units
at positions i, ..., i + pat.length - 1 of l against pat. -/
def matchAt (l : List Nat) (i : Nat) (pat : List Nat) : Bool :=
  (l.drop i).take pat.length == pat

/-- Scan loop of basic_fstring::find(str, pos): try the next fuel start
indices from i upward. -/
def findFrom (l : List Nat) (pat : List Nat) (i : Nat) : Nat → Option Nat
  | 0 => none
  | fuel + 1 => if matchAt l i pat then some i else findFrom l pat (i + 1) fuel

/-- basic_fstring::find(str, pos), the pattern being the units of str
before its terminator; none stands for npos. -/
def findSub (b : Buf) (pat : List Nat) (pos : Nat) : Option Nat :=
  if pat.length = 0 then some pos
  else if b.len < pos + pat.length then none
  else findFrom b.buf pat pos (b.len - pat.length + 1 - pos)

/-- basic_fstring::substr into a result of capacity resCap. -/
def substr (b : Buf) (resCap pos count : Nat) : Buf :=
  if b.len ≤ pos then mkEmpty resCap
  else append (mkEmpty resCap) (b.buf.drop pos) (min count (b.len - pos))

/-- operator+ of basic_fstring with a character array of extent
arr.length: a result of capacity Cap + N receives the content and then all
N array units, the trailing zero of the literal included. -/
def opPlusArr (b : Buf) (arr : List Nat) : Buf :=
  append (append (mkEmpty (b.cap + arr.length)) b.buf b.len) arr arr.length

/-- operator+= of basic_fstring with a character array of extent
arr.length: append(rhs, N). -/
def opPlusEqArr (b : Buf) (arr : List Nat) : Buf :=
  append b arr arr.length

/-- While loop of count_fn for a substring pattern: find the next
occurrence from pos, count it, jump past it. The fuel bounds the number of
iterations; it never runs out because every iteration advances pos by at
least one and the loop stops once pos reaches the size. -/
def countSubGo (b : Buf) (pat : List Nat) : Nat → Nat → Nat
  | _, 0 => 0
  | pos, fuel + 1 =>
    if pos < b.len then
      match findSub b pat pos with
      | none => 0
      | some found => 1 + countSubGo b pat (found + pat.length) fuel
    else 0

/-- count_fn::operator() for a substring pattern: the number of
non-overlapping occurrences; an empty pattern yields 0. -/
def count_sub (b : Buf) (pat : List Nat) : Nat :=
  if pat.length = 0 then 0 else countSubGo b pat 0 (b.len + 1)

end bfs

/-- Stream insertion operator<<(ostream, basic_fstring) writes str.data()
as a null-terminated character pointer: the array units strictly before
the first zero unit are emitted. -/
def ostream_emit (b : Buf) : List Nat := b.buf.takeWhile (fun c => c != 0)

namespace zstr

/-- zuu::string::assign_impl: clamp the count to the capacity, copy that
many units to the start, terminate. -/
def assign_impl (b : Buf) (src : List Nat) (count : Nat) : Buf :=
  let l := min count b.cap
  ⟨b.cap, (storeMany b.buf 0 (src.take l)).set l 0, l⟩

/-- Cross-capacity copy constructor and assignment of zuu::string:
assign_impl(other.data(), other.length()) on a fresh object. -/
def ofOther (cap : Nat) (other : Buf) : Buf :=
  assign_impl ⟨cap, List.replicate (cap + 1) 0, 0⟩ (content other) other.len

/-- zuu::string::clear. -/
def clear (b : Buf) : Buf := ⟨b.cap, b.buf.set 0 0, 0⟩

/-- zuu::string::push_back: returns false and leaves the object unchanged
when the buffer is full, else appends and returns true. -/
def push_back (b : Buf) (ch : Nat) : Bool × Buf :=
  if b.cap ≤ b.len then (false, b)
  else (true, ⟨b.cap, (b.buf.set b.len ch).set (b.len + 1) 0, b.len + 1⟩)

/-- zuu::string::pop_back. -/
def pop_back (b : Buf) : Buf :=
  if b.len = 0 then b else ⟨b.cap, b.buf.set (b.len - 1) 0, b.len - 1⟩

/-- zuu::string::append(str, count): returns the number of units copied. -/
def append (b : Buf) (src : List Nat) (count : Nat) : Nat × Buf :=
  if count = 0 ∨ b.cap ≤ b.len then (0, b)
  else
    let t := min count (b.cap - b.len)
    (t, ⟨b.cap, (storeMany b.buf b.len (src.take t)).set (b.len + t) 0, b.len + t⟩)

/-- zuu::string::insert(pos, str, count): shift the tail right with
memmove semantics (source range read before writing), copy the clamped
count in, terminate. -/
def insert (b : Buf) (pos : Nat) (src : List Nat) (count : Nat) : Buf :=
  if b.len < pos ∨ count = 0 ∨ b.cap ≤ b.len then b
  else
    let t := min count (b.cap - b.len)
    let toMove := b.len - pos
    let moved := (b.buf.drop pos).take toMove
    let buf1 := if 0 < toMove then storeMany b.buf (pos + t) moved else b.buf
    let buf2 := storeMany buf1 pos (src.take t)
    let nl := min (b.len + t) b.cap
    ⟨b.cap, buf2.set nl 0, nl⟩

/-- zuu::string::erase(pos, count): shift the tail left with memmove
semantics, terminate. -/
def erase (b : Buf) (pos : Nat) (count : Nat) : Buf :=
  if b.len ≤ pos then b
  else
    let toErase := min count (b.len - pos)
    let nl := b.len - toErase
    let toMove := b.len - (pos + toErase)
    let moved := (b.buf.drop (pos + toErase)).take toMove
    let buf1 := if 0 < toMove then storeMany b.buf pos moved else b.buf
    ⟨b.cap, buf1.set nl 0, nl⟩

/-- zuu::string::replace(pos, count, str, strLen): erase then insert. -/
def replace (b : Buf) (pos count : Nat) (src : List Nat) (srcLen : Nat) : Buf :=
  if b.len < pos then b else insert (erase b pos count) pos src srcLen

/-- One swap of the in-place reverse loop of zuu::string::reverse. -/
def swapStep (l : List Nat) (i j : Nat) : List Nat :=
  (l.set i (l.getD j 0)).set j (l.getD i 0)

/-- Swap loop of zuu::string::reverse, running k more iterations from
index i against index len - 1 - i. -/
def revLoop (len : Nat) : List Nat → Nat → Nat → List Nat
  | l, _, 0 => l
  | l, i, k + 1 => revLoop len (swapStep l i (len - 1 - i)) (i + 1) k

/-- zuu::string::reverse. -/
def rev (b : Buf) : Buf := ⟨b.cap, revLoop b.len b.buf 0 (b.len / 2), b.len⟩

/-- Modelled from the spec: detail::is_space of the missing header
constant_string_detail.hpp; the specification fixes the whitespace set to
space, tab, LF, CR, form-feed and vertical-tab. -/
def isSpaceDetail (c : Nat) : Bool :=
  decide (c = 32 ∨ c = 9 ∨ c = 10 ∨ c = 13 ∨ c = 12 ∨ c = 11)

/-- zuu::string::trim: locate the first and last non-whitespace boundary,
then shift the retained span to the front in place and terminate; a
buffer needing no trimming is returned untouched. -/
def trim (b : Buf) : Buf :=
  let s := ((content b).takeWhile isSpaceDetail).length
  let e := b.len - (((content b).drop s).reverse.takeWhile isSpaceDetail).length
  if 0 < s ∨ e < b.len then
    let nl := e - s
    let buf1 := if 0 < s then storeMany b.buf 0 ((b.buf.drop s).take nl) else b.buf
    ⟨b.cap, buf1.set nl 0, nl⟩
  else b

end zstr

namespace str

/-- Loop body of split_char_fn::operator(): cur is the pending token
content and cnt the number of tokens already stored. On a delimiter the
pending token is pushed only when it is non-empty and fewer than maxParts
tokens are stored; other units are pushed onto the pending token with the
capacity clamp of push_back. -/
def splitGo (cap maxParts d : Nat) : List Nat → List Nat → Nat → List (List Nat)
  | [], cur, cnt => if cur ≠ [] ∧ cnt < maxParts then [cur] else []
  | c :: rest, cur, cnt =>
    if c = d then
      if cur ≠ [] ∧ cnt < maxParts then cur :: splitGo cap maxParts d rest [] (cnt + 1)
      else splitGo cap maxParts d rest cur cnt
    else splitGo cap maxParts d rest (pushCapped cap cur c) cnt

/-- split_char_fn::operator(): token contents of splitting the content s
of a capacity-cap string on the character d, at most maxParts tokens. -/
def split_char (cap maxParts : Nat) (s : List Nat) (d : Nat) : List (List Nat) :=
  splitGo cap maxParts d s [] 0

/-- Loop body of rsplit_fn::operator() over the reversed content: emits
the pending token reversed; the whole loop stops once maxParts tokens are
stored, leaving any remaining units unprocessed. -/
def rsplitGo (cap maxParts d : Nat) : List Nat → List Nat → Nat → List (List Nat)
  | [], cur, cnt => if cur ≠ [] ∧ cnt < maxParts then [cur.reverse] else []
  | c :: rest, cur, cnt =>
    if cnt < maxParts then
      if c = d then
        if cur ≠ [] then cur.reverse :: rsplitGo cap maxParts d rest [] (cnt + 1)
        else rsplitGo cap maxParts d rest cur cnt
      else rsplitGo cap maxParts d rest (pushCapped cap cur c) cnt
    else []

/-- rsplit_fn::operator(): scan the content from the right, then reverse
the collected array back into left-to-right order. -/
def rsplit_char (cap maxParts : Nat) (s : List Nat) (d : Nat) : List (List Nat) :=
  (rsplitGo cap maxParts d s.reverse [] 0).reverse

/-- char_to_lower of zuu/str/case.hpp. -/
def char_to_lower (c : Nat) : Nat := if 65 ≤ c ∧ c ≤ 90 then c + 32 else c

/-- char_to_upper of zuu/str/case.hpp. -/
def char_to_upper (c : Nat) : Nat := if 97 ≤ c ∧ c ≤ 122 then c - 32 else c

/-- is_alpha of zuu/str/case.hpp. -/
def is_alpha (c : Nat) : Bool :=
  decide ((97 ≤ c ∧ c ≤ 122) ∨ (65 ≤ c ∧ c ≤ 90))

/-- is_whitespace of zuu/str/case.hpp: it tests only space, tab, LF and
CR. -/
def is_whitespace (c : Nat) : Bool :=
  decide (c = 32 ∨ c = 9 ∨ c = 10 ∨ c = 13)

/-- Loop of to_title_fn::apply with result accumulator acc and the
capitalize_next flag. -/
def toTitleGo (cap : Nat) (acc : List Nat) (capNext : Bool) : List Nat → List Nat
  | [] => acc
  | c :: rest =>
    if is_whitespace c then toTitleGo cap (pushCapped cap acc c) true rest
    else if is_alpha c then
      toTitleGo cap
        (pushCapped cap acc (if capNext then char_to_upper c else char_to_lower c)) false rest
    else toTitleGo cap (pushCapped cap acc c) false rest

/-- to_title_fn::apply on the content of a capacity-cap string; the result
buffer has the same capacity. -/
def to_title (cap : Nat) (s : List Nat) : List Nat := toTitleGo cap [] true s

end str

namespace fmt

/-- Decimal digit characters of n, least significant first, as produced by
the digit-emitting loop of the integral formatter. -/
def digitsRev (n : Nat) : List Nat :=
  if h : n = 0 then []
  else (n % 10 + 48) :: digitsRev (n / 10)
termination_by n
decreasing_by exact Nat.div_lt_self (Nat.pos_of_ne_zero h) (by omega)

/-- Wrap of two-complement signed 64-bit machine arithmetic. -/
def wrap64 (x : Int) : Int := (x + 2 ^ 63) % 2 ^ 64 - 2 ^ 63

/-- formatter of a signed 64-bit integral value: the magnitude is computed
through unsigned negation (natAbs), its digits are emitted least
significant first into a scratch buffer and pushed back most significant
first after an optional minus sign; the result buffer has capacity
digits10 + 3 = 21. -/
def fmtInt64 (n : Int) : List Nat :=
  if n = 0 then [48]
  else
    (digitsRev n.natAbs).reverse.foldl (pushCapped 21)
      (if n < 0 then pushCapped 21 [] 45 else [])

/-- Digit value fmt::parse_int assigns to the character c, or -1. -/
def digitOfChar (c : Nat) : Int :=
  if 48 ≤ c ∧ c ≤ 57 then (c : Int) - 48
  else if 97 ≤ c ∧ c ≤ 122 then 10 + ((c : Int) - 97)
  else if 65 ≤ c ∧ c ≤ 90 then 10 + ((c : Int) - 65)
  else -1

/-- Digit-consuming loop of fmt::parse_int with signed 64-bit
accumulation; overflow wraps as two-complement machine arithmetic does. -/
def parseLoop (base : Int) : List Nat → Int → Int
  | [], acc => acc
  | c :: rest, acc =>
    if digitOfChar c < 0 ∨ base ≤ digitOfChar c then acc
    else parseLoop base rest (wrap64 (acc * base + digitOfChar c))

/-- fmt::parse_int instantiated at a signed 64-bit result type. -/
def parse_int64 (s : List Nat) (base : Int) : Int :=
  match s with
  | [] => 0
  | c :: rest =>
    if c = 45 then wrap64 (-parseLoop base rest 0)
    else if c = 43 then parseLoop base rest 0
    else parseLoop base (c :: rest) 0

end fmt

namespace ref

/-- Reference field splitting into the (possibly empty) segments between
delimiter occurrences, stated from the spec notion of runs between
delimiters. -/
def splitOnRef (d : Nat) : List Nat → List (List Nat)
  | [] => [[]]
  | c :: rest =>
    if c = d then [] :: splitOnRef d rest
    else (splitOnRef d rest).modifyHead (fun t => c :: t)

/-- The non-empty maximal runs between delimiters: the spec-side token
list of a split. -/
def tokensOf (d : Nat) (s : List Nat) : List (List Nat) :=
  (splitOnRef d s).filter (fun t => !t.isEmpty)

/-- Append one unit to the last segment of a segment list; helper for
reasoning about splitting a string extended on the right. -/
def appendLast (c : Nat) : List (List Nat) → List (List Nat)
  | [] => [[c]]
  | [t] => [t ++ [c]]
  | t :: t2 :: ts => t :: appendLast c (t2 :: ts)

/-- Reference non-overlapping occurrence count stated from the spec: a
match advances the scan position by the match length, anything else by one
unit. -/
def refCount (pat : List Nat) (s : List Nat) : Nat :=
  if hs : s = [] then 0
  else if hp : pat ≠ [] ∧ pat.isPrefixOf s then 1 + refCount pat (s.drop pat.length)
  else refCount pat (s.drop 1)
termination_by s.length
decreasing_by
  · have h1 : 0 < s.length := List.length_pos.mpr hs
    have h2 : 0 < pat.length := List.length_pos.mpr hp.1
    simp only [List.length_drop]
    omega
  · have h1 : 0 < s.length := List.length_pos.mpr hs
    simp only [List.length_drop]
    omega

/-- Whitespace set the C7 claim asserts for to_title: space, tab, LF, CR,
form-feed and vertical-tab, stated from the spec. -/
def claimWhitespace (c : Nat) : Bool :=
  decide (c = 32 ∨ c = 9 ∨ c = 10 ∨ c = 13 ∨ c = 12 ∨ c = 11)

/-- Title transform the C7 claim describes, with the six-character
whitespace set: an alphabetic unit is uppercased exactly when the unit
before it (a virtual leading space at the string start) is whitespace,
every other alphabetic unit is lowercased, anything else passes through. -/
def titleClaim (s : List Nat) : List Nat :=
  List.zipWith
    (fun c p =>
      if str.is_alpha c then
        if claimWhitespace p then str.char_to_upper c else str.char_to_lower c
      else c)
    s (32 :: s)

end ref

/-! Helper lemmas about the array-write primitives. -/

theorem storeMany_length (vs : List Nat) : ∀ (l : List Nat) (i : Nat),
    (storeMany l i vs).length = l.length := by
  induction vs with
  | nil => intro l i; rfl
  | cons v rest ih =>
    intro l i
    rw [storeMany, ih, List.length_set]

theorem storeMany_cons_succ (vs : List Nat) : ∀ (a : Nat) (l : List Nat) (i : Nat),
    storeMany (a :: l) (i + 1) vs = a :: storeMany l i vs := by
  induction vs with
  | nil => intro a l i; rfl
  | cons v rest ih =>
    intro a l i
    rw [storeMany, storeMany, List.set_cons_succ, ih]

theorem storeMany_zero (vs : List Nat) : ∀ (l : List Nat), vs.length ≤ l.length →
    storeMany l 0 vs = vs ++ l.drop vs.length := by
  induction vs with
  | nil => intro l _; simp [storeMany]
  | cons v rest ih =>
    intro l hl
    cases l with
    | nil => simp at hl
    | cons a l =>
      rw [storeMany, List.set_cons_zero, storeMany_cons_succ, ih l (by simpa using hl)]
      simp

theorem storeMany_shift (i : Nat) : ∀ (l : List Nat) (vs : List Nat), i ≤ l.length →
    storeMany l i vs = l.take i ++ storeMany (l.drop i) 0 vs := by
  induction i with
  | zero => intro l vs _; simp
  | succ i ih =>
    intro l vs hl
    cases l with
    | nil => simp at hl
    | cons a l =>
      cases vs with
      | nil => simp [storeMany]
      | cons v rest =>
        rw [storeMany_cons_succ (v :: rest), ih l (v :: rest) (by simpa using hl)]
        simp

theorem storeMany_spec (l : List Nat) (i : Nat) (vs : List Nat)
    (h : i + vs.length ≤ l.length) :
    storeMany l i vs = l.take i ++ vs ++ l.drop (i + vs.length) := by
  rw [storeMany_shift i l vs (by omega),
    storeMany_zero vs (l.drop i) (by simp [List.length_drop]; omega)]
  simp [List.drop_drop, List.append_assoc, Nat.add_comm]

theorem set_spec (l : List Nat) (j v : Nat) (h : j < l.length) :
    l.set j v = l.take j ++ v :: l.drop (j + 1) := by
  have : l.set j v = storeMany l j [v] := rfl
  rw [this, storeMany_spec l j [v] (by simpa using h)]
  simp

theorem getD_set_self (l : List Nat) : ∀ (i : Nat) (v : Nat), i < l.length →
    (l.set i v).getD i 0 = v := by
  induction l with
  | nil => intro i v h; simp at h
  | cons a l ih =>
    intro i v h
    cases i with
    | zero => rfl
    | succ i => exact ih i v (by simpa using h)

theorem getD_set_ne (l : List Nat) : ∀ (i j : Nat) (v : Nat), i ≠ j →
    (l.set i v).getD j 0 = l.getD j 0 := by
  induction l with
  | nil => intro i j v _; rfl
  | cons a l ih =>
    intro i j v h
    cases i with
    | zero =>
      cases j with
      | zero => exact absurd rfl h
      | succ j => rfl
    | succ i =>
      cases j with
      | zero => rfl
      | succ j => exact ih i j v (by omega)

theorem take_set_ge (v : Nat) : ∀ (l : List Nat) (t j : Nat), t ≤ j →
    (l.set j v).take t = l.take t := by
  intro l
  induction l with
  | nil => intro t j _; rfl
  | cons a l ih =>
    intro t j h
    cases j with
    | zero =>
      cases t with
      | zero => rfl
      | succ t => omega
    | succ j =>
      cases t with
      | zero => rfl
      | succ t => simp [List.set_cons_succ, ih t j (by omega)]

theorem take_append_exact (xs ys : List Nat) (a m : Nat) (h : xs.length = a) :
    (xs ++ ys).take (a + m) = xs ++ ys.take m := by
  rw [List.take_append_eq_append_take, h]
  have h2 : a + m - a = m := by omega
  rw [h2, List.take_of_length_le (by omega)]

theorem getD_replicate_zero : ∀ (n i : Nat), (List.replicate n 0).getD i 0 = 0 := by
  intro n
  induction n with
  | zero => intro i; rfl
  | succ n ih =>
    intro i
    cases i with
    | zero => rfl
    | succ i => exact ih i

/-- The common well-formedness pattern: an operation that ends by storing
the terminator at the new length t of an array of unchanged physical
length produces a well-formed state. -/
theorem wf_mk (cap t : Nat) (X : List Nat) (hX : X.length = cap + 1) (ht : t ≤ cap) :
    wf ⟨cap, X.set t 0, t⟩ :=
  ⟨by rw [List.length_set, hX], ht, getD_set_self X t 0 (by omega)⟩

/-! Preservation of the class invariant by every operation. -/

theorem wf_mkEmpty (cap : Nat) : wf (bfs.mkEmpty cap) :=
  ⟨by simp [bfs.mkEmpty], Nat.zero_le cap, getD_replicate_zero (cap + 1) 0⟩

theorem wf_fromLiteral (cap : Nat) (arr : List Nat) : wf (bfs.fromLiteral cap arr) :=
  wf_mk cap _ _ (by rw [storeMany_length, List.length_replicate]) (by omega)

theorem wf_fromPtrLen (cap : Nat) (src : List Nat) (n : Nat) : wf (bfs.fromPtrLen cap src n) :=
  wf_mk cap _ _ (by rw [storeMany_length, List.length_replicate]) (by omega)

theorem wf_fill (cap : Nat) (count ch : Nat) : wf (bfs.fill cap count ch) :=
  wf_mk cap _ _ (by rw [storeMany_length, List.length_replicate]) (by omega)

theorem wf_bfs_clear (b : Buf) (h : wf b) : wf (bfs.clear b) :=
  wf_mk b.cap 0 b.buf h.1 (Nat.zero_le _)

theorem wf_zstr_clear (b : Buf) (h : wf b) : wf (zstr.clear b) :=
  wf_mk b.cap 0 b.buf h.1 (Nat.zero_le _)

theorem wf_bfs_push_back (b : Buf) (ch : Nat) (h : wf b) : wf (bfs.push_back b ch) := by
  unfold bfs.push_back
  by_cases hc : b.len = b.cap
  · rw [if_pos hc]; exact h
  · rw [if_neg hc]
    exact wf_mk _ _ _ (by rw [List.length_set, h.1]) (by have := h.2.1; omega)

theorem wf_zstr_push_back (b : Buf) (ch : Nat) (h : wf b) : wf (zstr.push_back b ch).2 := by
  unfold zstr.push_back
  by_cases hc : b.cap ≤ b.len
  · rw [if_pos hc]; exact h
  · rw [if_neg hc]
    exact wf_mk _ _ _ (by rw [List.length_set, h.1]) (by omega)

theorem wf_bfs_pop_back (b : Buf) (h : wf b) : wf (bfs.pop_back b) := by
  unfold bfs.pop_back
  by_cases hc : b.len = 0
  · rw [if_pos hc]; exact h
  · rw [if_neg hc]
    exact wf_mk _ _ _ h.1 (by have := h.2.1; omega)

theorem wf_zstr_pop_back (b : Buf) (h : wf b) : wf (zstr.pop_back b) := by
  unfold zstr.pop_back
  by_cases hc : b.len = 0
  · rw [if_pos hc]; exact h
  · rw [if_neg hc]
    exact wf_mk _ _ _ h.1 (by have := h.2.1; omega)

theorem wf_resize (b : Buf) (newSize ch : Nat) (h : wf b) : wf (bfs.resize b newSize ch) := by
  unfold bfs.resize
  apply wf_mk
  · by_cases hlt : b.len < min newSize b.cap
    · rw [if_pos hlt, storeMany_length, h.1]
    · rw [if_neg hlt, h.1]
  · omega

theorem wf_bfs_append (b : Buf) (src : List Nat) (n : Nat) (h : wf b) :
    wf (bfs.append b src n) := by
  unfold bfs.append
  by_cases hc : b.len = b.cap
  · rw [if_pos hc]; exact h
  · rw [if_neg hc]
    exact wf_mk _ _ _ (by rw [storeMany_length, h.1]) (by have := h.2.1; omega)

theorem wf_appendFill (b : Buf) (count ch : Nat) (h : wf b) :
    wf (bfs.appendFill b count ch) := by
  unfold bfs.appendFill
  exact wf_mk _ _ _ (by rw [storeMany_length, h.1]) (by have := h.2.1; omega)

theorem wf_assign_impl (b : Buf) (src : List Nat) (count : Nat)
    (hlen : b.buf.length = b.cap + 1) : wf (zstr.assign_impl b src count) :=
  wf_mk _ _ _ (by rw [storeMany_length, hlen]) (by omega)

theorem wf_ofOther (cap : Nat) (other : Buf) : wf (zstr.ofOther cap other) :=
  wf_assign_impl ⟨cap, List.replicate (cap + 1) 0, 0⟩ _ _ (by simp)

theorem wf_zstr_append (b : Buf) (src : List Nat) (count : Nat) (h : wf b) :
    wf (zstr.append b src count).2 := by
  unfold zstr.append
  by_cases hc : count = 0 ∨ b.cap ≤ b.len
  · rw [if_pos hc]; exact h
  · rw [if_neg hc]
    exact wf_mk _ _ _ (by rw [storeMany_length, h.1]) (by have := h.2.1; omega)

theorem wf_insert (b : Buf) (pos : Nat) (src : List Nat) (count : Nat) (h : wf b) :
    wf (zstr.insert b pos src count) := by
  unfold zstr.insert
  by_cases hc : b.len < pos ∨ count = 0 ∨ b.cap ≤ b.len
  · rw [if_pos hc]; exact h
  · rw [if_neg hc]
    apply wf_mk
    · rw [storeMany_length]
      by_cases hm : 0 < b.len - pos
      · rw [if_pos hm, storeMany_length, h.1]
      · rw [if_neg hm, h.1]
    · omega

theorem wf_erase (b : Buf) (pos count : Nat) (h : wf b) : wf (zstr.erase b pos count) := by
  unfold zstr.erase
  by_cases hc : b.len ≤ pos
  · rw [if_pos hc]; exact h
  · rw [if_neg hc]
    apply wf_mk
    · by_cases hm : 0 < b.len - (pos + min count (b.len - pos))
      · rw [if_pos hm, storeMany_length, h.1]
      · rw [if_neg hm, h.1]
    · have := h.2.1; omega

theorem wf_replace (b : Buf) (pos count : Nat) (src : List Nat) (srcLen : Nat) (h : wf b) :
    wf (zstr.replace b pos count src srcLen) := by
  unfold zstr.replace
  by_cases hc : b.len < pos
  · rw [if_pos hc]; exact h
  · rw [if_neg hc]
    exact wf_insert _ _ _ _ (wf_erase b pos count h)

theorem revLoop_length (len : Nat) : ∀ (k : Nat) (l : List Nat) (i : Nat),
    (zstr.revLoop len l i k).length = l.length := by
  intro k
  induction k with
  | zero => intro l i; rfl
  | succ k ih =>
    intro l i
    rw [zstr.revLoop, ih, zstr.swapStep, List.length_set, List.length_set]

theorem revLoop_getD_high (len : Nat) : ∀ (k i : Nat) (l : List Nat) (j : Nat),
    i + k ≤ len → len ≤ j → (zstr.revLoop len l i k).getD j 0 = l.getD j 0 := by
  intro k
  induction k with
  | zero => intro i l j _ _; rfl
  | succ k ih =>
    intro i l j hk hj
    rw [zstr.revLoop, ih (i + 1) _ j (by omega) hj, zstr.swapStep,
      getD_set_ne _ _ _ _ (by omega), getD_set_ne _ _ _ _ (by omega)]

theorem wf_rev (b : Buf) (h : wf b) : wf (zstr.rev b) := by
  refine ⟨?_, h.2.1, ?_⟩
  · show (zstr.revLoop b.len b.buf 0 (b.len / 2)).length = b.cap + 1
    rw [revLoop_length, h.1]
  · show (zstr.revLoop b.len b.buf 0 (b.len / 2)).getD b.len 0 = 0
    rw [revLoop_getD_high b.len (b.len / 2) 0 b.buf b.len (by omega) (le_refl _)]
    exact h.2.2

theorem wf_trim (b : Buf) (h : wf b) : wf (zstr.trim b) := by
  unfold zstr.trim
  set s := ((content b).takeWhile zstr.isSpaceDetail).length with hs
  set e := b.len - (((content b).drop s).reverse.takeWhile zstr.isSpaceDetail).length with he
  by_cases hc : 0 < s ∨ e < b.len
  · rw [if_pos hc]
    apply wf_mk
    · by_cases hm : 0 < s
      · rw [if_pos hm, storeMany_length, h.1]
      · rw [if_neg hm, h.1]
    · have := h.2.1; omega
  · rw [if_neg hc]; exact h

theorem wf_substr (b : Buf) (resCap pos count : Nat) : wf (bfs.substr b resCap pos count) := by
  unfold bfs.substr
  by_cases hc : b.len ≤ pos
  · rw [if_pos hc]; exact wf_mkEmpty resCap
  · rw [if_neg hc]
    exact wf_bfs_append _ _ _ (wf_mkEmpty resCap)

theorem wf_opPlusArr (b : Buf) (arr : List Nat) : wf (bfs.opPlusArr b arr) :=
  wf_bfs_append _ _ _ (wf_bfs_append _ _ _ (wf_mkEmpty _))

theorem wf_opPlusEqArr (b : Buf) (arr : List Nat) (h : wf b) : wf (bfs.opPlusEqArr b arr) :=
  wf_bfs_append _ _ _ h

theorem pushCapped_le (cap : Nat) (cur : List Nat) (c : Nat) (h : cur.length ≤ cap) :
    (pushCapped cap cur c).length ≤ cap := by
  unfold pushCapped
  by_cases hl : cur.length < cap
  · rw [if_pos hl]; simp; omega
  · rw [if_neg hl]; exact h

theorem splitGo_parts_le (cap maxParts d : Nat) : ∀ (s cur : List Nat) (cnt : Nat),
    cur.length ≤ cap → ∀ t ∈ str.splitGo cap maxParts d s cur cnt, t.length ≤ cap := by
  intro s
  induction s with
  | nil =>
    intro cur cnt hc t ht
    unfold str.splitGo at ht
    by_cases hg : cur ≠ [] ∧ cnt < maxParts
    · rw [if_pos hg] at ht
      simp at ht
      rw [ht]; exact hc
    · rw [if_neg hg] at ht
      simp at ht
  | cons c rest ih =>
    intro cur cnt hc t ht
    unfold str.splitGo at ht
    by_cases hcd : c = d
    · rw [if_pos hcd] at ht
      by_cases hg : cur ≠ [] ∧ cnt < maxParts
      · rw [if_pos hg] at ht
        rcases List.mem_cons.mp ht with h1 | h1
        · rw [h1]; exact hc
        · exact ih [] (cnt + 1) (by simp) t h1
      · rw [if_neg hg] at ht
        exact ih cur cnt hc t ht
    · rw [if_neg hcd] at ht
      exact ih (pushCapped cap cur c) cnt (pushCapped_le cap cur c hc) t ht

/-! Content equations for the mutation operations. -/

theorem content_mk (cap t : Nat) (X : List Nat) :
    content ⟨cap, X.set t 0, t⟩ = X.take t :=
  take_set_ge 0 X t t (le_refl t)

theorem take_storeMany_append (base : List Nat) (i : Nat) (vs : List Nat)
    (hfit : i + vs.length ≤ base.length) :
    (storeMany base i vs).take (i + vs.length) = base.take i ++ vs := by
  rw [storeMany_spec base i vs hfit, List.append_assoc]
  have h1 : (base.take i).length = i := by rw [List.length_take]; omega
  rw [take_append_exact _ _ i vs.length h1]
  congr 1
  rw [List.take_append_eq_append_take]
  simp

theorem content_bfs_append (b : Buf) (src : List Nat) (n : Nat) (h : wf b)
    (hsrc : n ≤ src.length) :
    content (bfs.append b src n) = content b ++ src.take (min n (b.cap - b.len)) := by
  unfold bfs.append
  by_cases hc : b.len = b.cap
  · rw [if_pos hc]
    simp [hc]
  · rw [if_neg hc]
    have hA : b.len ≤ b.cap := h.2.1
    have hk : (src.take (min n (b.cap - b.len))).length = min n (b.cap - b.len) := by
      rw [List.length_take]; omega
    show ((storeMany b.buf b.len (src.take (min n (b.cap - b.len)))).set
        (b.len + min n (b.cap - b.len)) 0).take (b.len + min n (b.cap - b.len)) = _
    rw [take_set_ge 0 _ _ _ (le_refl _)]
    have := take_storeMany_append b.buf b.len (src.take (min n (b.cap - b.len)))
      (by rw [hk, h.1]; omega)
    rw [hk] at this
    rw [this]
    rfl

theorem bfs_append_len (b : Buf) (src : List Nat) (n : Nat) (h : wf b) :
    (bfs.append b src n).len = b.len + min n (b.cap - b.len) ∧
    (bfs.append b src n).cap = b.cap := by
  unfold bfs.append
  by_cases hc : b.len = b.cap
  · rw [if_pos hc]
    constructor
    · have : b.cap - b.len = 0 := by omega
      rw [this]; omega
    · rfl
  · rw [if_neg hc]
    exact ⟨rfl, rfl⟩

theorem zstr_append_spec (b : Buf) (src : List Nat) (count : Nat) (h : wf b)
    (hsrc : count ≤ src.length) :
    (zstr.append b src count).1 = min count (b.cap - b.len) ∧
    content (zstr.append b src count).2 =
      content b ++ src.take (min count (b.cap - b.len)) ∧
    (zstr.append b src count).2.len = b.len + min count (b.cap - b.len) ∧
    (zstr.append b src count).2.cap = b.cap := by
  unfold zstr.append
  have hA : b.len ≤ b.cap := h.2.1
  by_cases hc : count = 0 ∨ b.cap ≤ b.len
  · rw [if_pos hc]
    have hz : min count (b.cap - b.len) = 0 := by omega
    rw [hz]
    refine ⟨rfl, by simp, ?_, rfl⟩
    show b.len = b.len + 0
    omega
  · rw [if_neg hc]
    refine ⟨rfl, ?_, rfl, rfl⟩
    have hk : (src.take (min count (b.cap - b.len))).length = min count (b.cap - b.len) := by
      rw [List.length_take]; omega
    show ((storeMany b.buf b.len (src.take (min count (b.cap - b.len)))).set
        (b.len + min count (b.cap - b.len)) 0).take (b.len + min count (b.cap - b.len)) = _
    rw [take_set_ge 0 _ _ _ (le_refl _)]
    have := take_storeMany_append b.buf b.len (src.take (min count (b.cap - b.len)))
      (by rw [hk, h.1]; omega)
    rw [hk] at this
    rw [this]
    rfl

/-- C1: for every buffer and after every public operation (construction,
assignment, clear, push_back, pop_back, resize, append, insert, erase,
replace, reverse, trim, substr, concatenation, split results), the length
never exceeds the capacity and the code unit at the length index is the
zero terminator; split result parts respect the part capacity. -/
theorem C1_invariant_after_every_operation
    (cap resCap n count ch pos newSize maxParts d srcLen : Nat)
    (b other : Buf) (arr src s : List Nat) (hwf : wf b) :
    wf (bfs.mkEmpty cap) ∧
    wf (bfs.fromLiteral cap arr) ∧
    wf (bfs.fromPtrLen cap src n) ∧
    wf (bfs.fill cap count ch) ∧
    wf (zstr.assign_impl b src count) ∧
    wf (zstr.ofOther cap other) ∧
    wf (bfs.clear b) ∧
    wf (zstr.clear b) ∧
    wf (bfs.push_back b ch) ∧
    wf (zstr.push_back b ch).2 ∧
    wf (bfs.pop_back b) ∧
    wf (zstr.pop_back b) ∧
    wf (bfs.resize b newSize ch) ∧
    wf (bfs.append b src n) ∧
    wf (bfs.appendFill b count ch) ∧
    wf (zstr.append b src count).2 ∧
    wf (zstr.insert b pos src count) ∧
    wf (zstr.erase b pos count) ∧
    wf (zstr.replace b pos count src srcLen) ∧
    wf (zstr.rev b) ∧
    wf (zstr.trim b) ∧
    wf (bfs.substr b resCap pos count) ∧
    wf (bfs.opPlusArr b arr) ∧
    wf (bfs.opPlusEqArr b arr) ∧
    (∀ t ∈ str.split_char cap maxParts s d, t.length ≤ cap) :=
  ⟨wf_mkEmpty cap, wf_fromLiteral cap arr, wf_fromPtrLen cap src n, wf_fill cap count ch,
    wf_assign_impl b src count hwf.1, wf_ofOther cap other,
    wf_bfs_clear b hwf, wf_zstr_clear b hwf,
    wf_bfs_push_back b ch hwf, wf_zstr_push_back b ch hwf,
    wf_bfs_pop_back b hwf, wf_zstr_pop_back b hwf,
    wf_resize b newSize ch hwf,
    wf_bfs_append b src n hwf, wf_appendFill b count ch hwf,
    wf_zstr_append b src count hwf,
    wf_insert b pos src count hwf, wf_erase b pos count hwf,
    wf_replace b pos count src srcLen hwf,
    wf_rev b hwf, wf_trim b hwf,
    wf_substr b resCap pos count,
    wf_opPlusArr b arr, wf_opPlusEqArr b arr hwf,
    splitGo_parts_le cap maxParts d s [] 0 (by simp)⟩

theorem C1_witness :
    wf (bfs.fromPtrLen 3 [1, 2] 2) ∧
    wf (bfs.mkEmpty 3) ∧
    wf (bfs.fromLiteral 3 [5, 0]) ∧
    wf (bfs.fromPtrLen 3 [9, 8] 2) ∧
    wf (bfs.fill 3 1 7) ∧
    wf (zstr.assign_impl (bfs.fromPtrLen 3 [1, 2] 2) [9, 8] 1) ∧
    wf (zstr.ofOther 3 (bfs.mkEmpty 2)) ∧
    wf (bfs.clear (bfs.fromPtrLen 3 [1, 2] 2)) ∧
    wf (zstr.clear (bfs.fromPtrLen 3 [1, 2] 2)) ∧
    wf (bfs.push_back (bfs.fromPtrLen 3 [1, 2] 2) 7) ∧
    wf (zstr.push_back (bfs.fromPtrLen 3 [1, 2] 2) 7).2 ∧
    wf (bfs.pop_back (bfs.fromPtrLen 3 [1, 2] 2)) ∧
    wf (zstr.pop_back (bfs.fromPtrLen 3 [1, 2] 2)) ∧
    wf (bfs.resize (bfs.fromPtrLen 3 [1, 2] 2) 2 7) ∧
    wf (bfs.append (bfs.fromPtrLen 3 [1, 2] 2) [9, 8] 2) ∧
    wf (bfs.appendFill (bfs.fromPtrLen 3 [1, 2] 2) 1 7) ∧
    wf (zstr.append (bfs.fromPtrLen 3 [1, 2] 2) [9, 8] 1).2 ∧
    wf (zstr.insert (bfs.fromPtrLen 3 [1, 2] 2) 1 [9, 8] 1) ∧
    wf (zstr.erase (bfs.fromPtrLen 3 [1, 2] 2) 1 1) ∧
    wf (zstr.replace (bfs.fromPtrLen 3 [1, 2] 2) 1 1 [9, 8] 1) ∧
    wf (zstr.rev (bfs.fromPtrLen 3 [1, 2] 2)) ∧
    wf (zstr.trim (bfs.fromPtrLen 3 [1, 2] 2)) ∧
    wf (bfs.substr (bfs.fromPtrLen 3 [1, 2] 2) 2 1 1) ∧
    wf (bfs.opPlusArr (bfs.fromPtrLen 3 [1, 2] 2) [5, 0]) ∧
    wf (bfs.opPlusEqArr (bfs.fromPtrLen 3 [1, 2] 2) [5, 0]) ∧
    (∀ t ∈ str.split_char 3 16 [97, 44, 98] 44, t.length ≤ 3) :=
  ⟨by decide,
    C1_invariant_after_every_operation 3 2 2 1 7 1 2 16 44 1
      (bfs.fromPtrLen 3 [1, 2] 2) (bfs.mkEmpty 2) [5, 0] [9, 8] [97, 44, 98] (by decide)⟩

/-- C2: append(src, n) copies exactly min(n, available()) units onto the
end; the zuu::string overload returns that count; when n exceeds the
available space exactly available() units land and the buffer is full
afterward; the basic_fstring overload appends the same clamped content. -/
theorem C2_append_clamps_to_available (b : Buf) (src : List Nat) (n : Nat)
    (hwf : wf b) (hsrc : n ≤ src.length) :
    (zstr.append b src n).1 = min n (b.cap - b.len) ∧
    content (zstr.append b src n).2 = content b ++ src.take (min n (b.cap - b.len)) ∧
    (b.cap - b.len < n →
      (zstr.append b src n).2.len = (zstr.append b src n).2.cap) ∧
    content (bfs.append b src n) = content b ++ src.take (min n (b.cap - b.len)) := by
  obtain ⟨h1, h2, h3, h4⟩ := zstr_append_spec b src n hwf hsrc
  refine ⟨h1, h2, ?_, content_bfs_append b src n hwf hsrc⟩
  intro hgt
  rw [h3, h4]
  have := hwf.2.1
  omega

theorem C2_witness :
    wf (bfs.fromPtrLen 4 [1, 2, 3] 3) ∧ (2 : Nat) ≤ [7, 8].length ∧
    ((zstr.append (bfs.fromPtrLen 4 [1, 2, 3] 3) [7, 8] 2).1 = min 2 (4 - 3) ∧
      content (zstr.append (bfs.fromPtrLen 4 [1, 2, 3] 3) [7, 8] 2).2 =
        content (bfs.fromPtrLen 4 [1, 2, 3] 3) ++ [7, 8].take (min 2 (4 - 3)) ∧
      (4 - 3 < 2 →
        (zstr.append (bfs.fromPtrLen 4 [1, 2, 3] 3) [7, 8] 2).2.len =
          (zstr.append (bfs.fromPtrLen 4 [1, 2, 3] 3) [7, 8] 2).2.cap) ∧
      content (bfs.append (bfs.fromPtrLen 4 [1, 2, 3] 3) [7, 8] 2) =
        content (bfs.fromPtrLen 4 [1, 2, 3] 3) ++ [7, 8].take (min 2 (4 - 3))) :=
  ⟨by decide, by decide,
    C2_append_clamps_to_available (bfs.fromPtrLen 4 [1, 2, 3] 3) [7, 8] 2
      (by decide) (by decide)⟩

/-- C8: on a full buffer, push_back is a no-op that leaves the object
bit-for-bit unchanged; the zuu::string overload reports the failure by
returning false, and appending one more unit is likewise refused. -/
theorem C8_push_back_on_full_is_noop (b : Buf) (ch : Nat)
    (hwf : wf b) (hfull : b.len = b.cap) :
    (zstr.push_back b ch).1 = false ∧
    (zstr.push_back b ch).2 = b ∧
    bfs.push_back b ch = b ∧
    (zstr.append b [ch] 1).1 = 0 ∧
    (zstr.append b [ch] 1).2 = b := by
  refine ⟨?_, ?_, ?_, ?_, ?_⟩
  · unfold zstr.push_back; rw [if_pos (by omega)]
  · unfold zstr.push_back; rw [if_pos (by omega)]
  · unfold bfs.push_back; rw [if_pos hfull]
  · unfold zstr.append; rw [if_pos (by omega)]
  · unfold zstr.append; rw [if_pos (by omega)]

theorem C8_witness :
    wf (zstr.assign_impl (bfs.mkEmpty 5) [49, 50, 51, 52, 53] 5) ∧
    (zstr.assign_impl (bfs.mkEmpty 5) [49, 50, 51, 52, 53] 5).len =
      (zstr.assign_impl (bfs.mkEmpty 5) [49, 50, 51, 52, 53] 5).cap ∧
    content (zstr.assign_impl (bfs.mkEmpty 5) [49, 50, 51, 52, 53] 5) =
      [49, 50, 51, 52, 53] ∧
    ((zstr.push_back (zstr.assign_impl (bfs.mkEmpty 5) [49, 50, 51, 52, 53] 5) 54).1 = false ∧
      (zstr.push_back (zstr.assign_impl (bfs.mkEmpty 5) [49, 50, 51, 52, 53] 5) 54).2 =
        zstr.assign_impl (bfs.mkEmpty 5) [49, 50, 51, 52, 53] 5 ∧
      bfs.push_back (zstr.assign_impl (bfs.mkEmpty 5) [49, 50, 51, 52, 53] 5) 54 =
        zstr.assign_impl (bfs.mkEmpty 5) [49, 50, 51, 52, 53] 5 ∧
      (zstr.append (zstr.assign_impl (bfs.mkEmpty 5) [49, 50, 51, 52, 53] 5) [54] 1).1 = 0 ∧
      (zstr.append (zstr.assign_impl (bfs.mkEmpty 5) [49, 50, 51, 52, 53] 5) [54] 1).2 =
        zstr.assign_impl (bfs.mkEmpty 5) [49, 50, 51, 52, 53] 5) :=
  ⟨by decide, by decide, by decide,
    C8_push_back_on_full_is_noop (zstr.assign_impl (bfs.mkEmpty 5) [49, 50, 51, 52, 53] 5)
      54 (by decide) (by decide)⟩

/-- C10: concatenating a basic_fstring with a character-array literal of
extent N appends all N array units, the trailing zero of the literal
included: with operator+ the result size is exactly lhs size plus N, and
with operator+= the appended count clamps to the remaining capacity. -/
theorem C10_concat_appends_literal_terminator (b : Buf) (arr : List Nat) (hwf : wf b) :
    (bfs.opPlusArr b arr).len = b.len + arr.length ∧
    (bfs.opPlusArr b arr).cap = b.cap + arr.length ∧
    content (bfs.opPlusArr b arr) = content b ++ arr ∧
    (bfs.opPlusEqArr b arr).len = b.len + min arr.length (b.cap - b.len) ∧
    content (bfs.opPlusEqArr b arr) = content b ++ arr.take (min arr.length (b.cap - b.len)) := by
  have hA : b.len ≤ b.cap := hwf.2.1
  have hwf1 : wf (bfs.mkEmpty (b.cap + arr.length)) := wf_mkEmpty _
  have hsrc1 : b.len ≤ b.buf.length := by rw [hwf.1]; omega
  have hl1 := bfs_append_len (bfs.mkEmpty (b.cap + arr.length)) b.buf b.len hwf1
  have hc1 := content_bfs_append (bfs.mkEmpty (b.cap + arr.length)) b.buf b.len hwf1 hsrc1
  have hm1 : min b.len ((bfs.mkEmpty (b.cap + arr.length)).cap -
      (bfs.mkEmpty (b.cap + arr.length)).len) = b.len := by
    show min b.len (b.cap + arr.length - 0) = b.len
    omega
  have hwf2 : wf (bfs.append (bfs.mkEmpty (b.cap + arr.length)) b.buf b.len) :=
    wf_bfs_append _ _ _ hwf1
  have hl2 := bfs_append_len (bfs.append (bfs.mkEmpty (b.cap + arr.length)) b.buf b.len)
    arr arr.length hwf2
  have hc2 := content_bfs_append (bfs.append (bfs.mkEmpty (b.cap + arr.length)) b.buf b.len)
    arr arr.length hwf2 (le_refl _)
  have hcap1 : (bfs.append (bfs.mkEmpty (b.cap + arr.length)) b.buf b.len).cap =
      b.cap + arr.length := hl1.2
  have hlen1 : (bfs.append (bfs.mkEmpty (b.cap + arr.length)) b.buf b.len).len = b.len := by
    rw [hl1.1, hm1]
    show 0 + b.len = b.len
    omega
  have hm2 : min arr.length ((bfs.append (bfs.mkEmpty (b.cap + arr.length)) b.buf b.len).cap -
      (bfs.append (bfs.mkEmpty (b.cap + arr.length)) b.buf b.len).len) = arr.length := by
    rw [hcap1, hlen1]; omega
  have hcont1 : content (bfs.append (bfs.mkEmpty (b.cap + arr.length)) b.buf b.len) =
      content b := by
    rw [hc1, hm1]
    show List.take 0 _ ++ b.buf.take b.len = content b
    simp [content]
  refine ⟨?_, ?_, ?_, ?_, ?_⟩
  · show (bfs.append _ arr arr.length).len = b.len + arr.length
    rw [hl2.1, hm2, hlen1]
  · show (bfs.append _ arr arr.length).cap = b.cap + arr.length
    rw [hl2.2, hcap1]
  · show content (bfs.append _ arr arr.length) = content b ++ arr
    rw [hc2, hm2, hcont1, List.take_of_length_le (le_refl _)]
  · exact (bfs_append_len b arr arr.length hwf).1
  · exact content_bfs_append b arr arr.length hwf (le_refl _)

theorem C10_witness :
    wf (bfs.fromPtrLen 5 [97, 98] 2) ∧
    ((bfs.opPlusArr (bfs.fromPtrLen 5 [97, 98] 2) [54, 0]).len = 2 + 2 ∧
      (bfs.opPlusArr (bfs.fromPtrLen 5 [97, 98] 2) [54, 0]).cap = 5 + 2 ∧
      content (bfs.opPlusArr (bfs.fromPtrLen 5 [97, 98] 2) [54, 0]) =
        content (bfs.fromPtrLen 5 [97, 98] 2) ++ [54, 0] ∧
      (bfs.opPlusEqArr (bfs.fromPtrLen 5 [97, 98] 2) [54, 0]).len = 2 + min 2 (5 - 2) ∧
      content (bfs.opPlusEqArr (bfs.fromPtrLen 5 [97, 98] 2) [54, 0]) =
        content (bfs.fromPtrLen 5 [97, 98] 2) ++ [54, 0].take (min 2 (5 - 2))) :=
  ⟨by decide, C10_concat_appends_literal_terminator (bfs.fromPtrLen 5 [97, 98] 2)
    [54, 0] (by decide)⟩

/-! Claim C9: stream emission. -/

theorem getD_drop_zero (l : List Nat) : ∀ n : Nat, l.getD n 0 = (l.drop n).getD 0 0 := by
  induction l with
  | nil => intro n; cases n <;> rfl
  | cons a l ih =>
    intro n
    cases n with
    | zero => rfl
    | succ n => exact ih n

theorem takeWhile_append_zero (rest : List Nat) : ∀ xs : List Nat,
    (xs ++ 0 :: rest).takeWhile (fun c => c != 0) = xs.takeWhile (fun c => c != 0) := by
  intro xs
  induction xs with
  | nil => simp [List.takeWhile]
  | cons a l ih =>
    by_cases ha : a = 0
    · subst ha; simp [List.takeWhile]
    · simp only [List.cons_append, List.takeWhile]
      have : (a != 0) = true := by simpa using ha
      rw [this]
      show a :: (l ++ 0 :: rest).takeWhile (fun c => c != 0) =
        a :: l.takeWhile (fun c => c != 0)
      rw [ih]

theorem takeWhile_of_zero_not_mem : ∀ l : List Nat, 0 ∉ l →
    l.takeWhile (fun c => c != 0) = l := by
  intro l
  induction l with
  | nil => intro _; rfl
  | cons a l ih =>
    intro h
    have ha : a ≠ 0 := fun hc => h (by rw [hc]; exact List.mem_cons_self 0 l)
    have hl : 0 ∉ l := fun hc => h (List.mem_cons_of_mem a hc)
    simp only [List.takeWhile]
    have : (a != 0) = true := by simpa using ha
    rw [this, ih hl]

/-- C9 counterexample: a capacity-2 buffer holding the two units 97, 0
(reached by two push_back calls) is well formed with size 2, yet the
stream operator emits only 1 unit, because it writes data() as a
null-terminated pointer and stops at the embedded zero. -/
theorem C9_counterexample :
    wf (bfs.push_back (bfs.push_back (bfs.mkEmpty 2) 97) 0) ∧
    (bfs.push_back (bfs.push_back (bfs.mkEmpty 2) 97) 0).len = 2 ∧
    (ostream_emit (bfs.push_back (bfs.push_back (bfs.mkEmpty 2) 97) 0)).length = 1 ∧
    (1 : Nat) ≠ 2 := by decide

/-- C9 amended: writing a buffer to an output stream emits exactly the
longest zero-free prefix of the content; this is exactly size() units
precisely when no unit of the content is the terminator value. -/
theorem C9_emit_is_zero_free_prefix (b : Buf) (hwf : wf b) :
    ostream_emit b = (content b).takeWhile (fun c => c != 0) ∧
    (0 ∉ content b → ostream_emit b = content b) := by
  have hsplit : b.buf = content b ++ b.buf.drop b.len := by
    rw [content, List.take_append_drop]
  have hlen : b.len < b.buf.length := by rw [hwf.1]; have := hwf.2.1; omega
  have hd : (b.buf.drop b.len).getD 0 0 = 0 := by
    rw [← getD_drop_zero]; exact hwf.2.2
  have hne : b.buf.drop b.len ≠ [] := by
    intro hc
    have := List.length_drop b.len b.buf
    rw [hc] at this
    simp at this
    omega
  obtain ⟨y, rest, hyr⟩ : ∃ y rest, b.buf.drop b.len = y :: rest := by
    cases hcase : b.buf.drop b.len with
    | nil => exact absurd hcase hne
    | cons y rest => exact ⟨y, rest, rfl⟩
  have hy : y = 0 := by rw [hyr] at hd; simpa using hd
  have h1 : ostream_emit b = (content b).takeWhile (fun c => c != 0) := by
    show b.buf.takeWhile (fun c => c != 0) = _
    conv_lhs => rw [hsplit, hyr, hy]
    exact takeWhile_append_zero rest (content b)
  exact ⟨h1, fun hnm => by rw [h1, takeWhile_of_zero_not_mem (content b) hnm]⟩

theorem C9_witness :
    wf (bfs.fromPtrLen 11 [104, 101, 108, 108, 111] 5) ∧
    (ostream_emit (bfs.fromPtrLen 11 [104, 101, 108, 108, 111] 5) =
      (content (bfs.fromPtrLen 11 [104, 101, 108, 108, 111] 5)).takeWhile
        (fun c => c != 0) ∧
      (0 ∉ content (bfs.fromPtrLen 11 [104, 101, 108, 108, 111] 5) →
        ostream_emit (bfs.fromPtrLen 11 [104, 101, 108, 108, 111] 5) =
          content (bfs.fromPtrLen 11 [104, 101, 108, 108, 111] 5))) :=
  ⟨by decide, C9_emit_is_zero_free_prefix (bfs.fromPtrLen 11 [104, 101, 108, 108, 111] 5)
    (by decide)⟩

/-! Claim C5: non-overlapping substring counting. -/

theorem content_length (b : Buf) (h : wf b) : (content b).length = b.len := by
  rw [content, List.length_take, h.1]
  have := h.2.1
  omega

theorem matchAt_iff (l : List Nat) (i : Nat) (pat : List Nat) :
    bfs.matchAt l i pat = true ↔ (l.drop i).take pat.length = pat := by
  rw [bfs.matchAt, beq_iff_eq]

theorem matchAt_content (b : Buf) (pat : List Nat) (j : Nat) (hwf : wf b)
    (h : j + pat.length ≤ b.len) :
    bfs.matchAt (content b) j pat = bfs.matchAt b.buf j pat := by
  unfold bfs.matchAt
  have hwin : ((content b).drop j).take pat.length = (b.buf.drop j).take pat.length := by
    rw [content, List.drop_take, List.take_take]
    congr 1
    omega
  rw [hwin]

theorem isPrefixOf_iff_matchAt (b : Buf) (pat : List Nat) (j : Nat) :
    pat.isPrefixOf ((content b).drop j) = bfs.matchAt (content b) j pat := by
  rw [Bool.eq_iff_iff]
  constructor
  · intro h
    exact (matchAt_iff _ _ _).mpr
      (List.prefix_iff_eq_take.mp (List.isPrefixOf_iff_prefix.mp h)).symm
  · intro h
    exact List.isPrefixOf_iff_prefix.mpr
      (List.prefix_iff_eq_take.mpr ((matchAt_iff _ _ _).mp h).symm)

theorem findFrom_some_spec (l pat : List Nat) : ∀ (fuel i j : Nat),
    bfs.findFrom l pat i fuel = some j →
    i ≤ j ∧ j < i + fuel ∧ bfs.matchAt l j pat = true ∧
      ∀ x, i ≤ x → x < j → bfs.matchAt l x pat = false := by
  intro fuel
  induction fuel with
  | zero => intro i j h; cases h
  | succ fuel ih =>
    intro i j h
    rw [bfs.findFrom] at h
    by_cases hm : bfs.matchAt l i pat = true
    · rw [if_pos hm] at h
      obtain rfl : i = j := by cases h; rfl
      exact ⟨le_refl i, by omega, hm, fun x h1 h2 => by omega⟩
    · rw [if_neg hm] at h
      obtain ⟨h1, h2, h3, h4⟩ := ih (i + 1) j h
      refine ⟨by omega, by omega, h3, ?_⟩
      intro x hx1 hx2
      by_cases hxi : x = i
      · subst hxi
        cases hcase : bfs.matchAt l x pat
        · rfl
        · exact absurd hcase hm
      · exact h4 x (by omega) hx2

theorem findFrom_none_spec (l pat : List Nat) : ∀ (fuel i : Nat),
    bfs.findFrom l pat i fuel = none →
    ∀ x, i ≤ x → x < i + fuel → bfs.matchAt l x pat = false := by
  intro fuel
  induction fuel with
  | zero => intro i _ x h1 h2; omega
  | succ fuel ih =>
    intro i h x h1 h2
    rw [bfs.findFrom] at h
    by_cases hm : bfs.matchAt l i pat = true
    · rw [if_pos hm] at h; cases h
    · rw [if_neg hm] at h
      by_cases hxi : x = i
      · subst hxi
        cases hcase : bfs.matchAt l x pat
        · rfl
        · exact absurd hcase hm
      · exact ih (i + 1) h x (by omega) (by omega)

theorem findSub_some_spec (b : Buf) (pat : List Nat) (pos j : Nat)
    (hp : pat ≠ []) (h : bfs.findSub b pat pos = some j) :
    pos ≤ j ∧ j + pat.length ≤ b.len ∧ bfs.matchAt b.buf j pat = true ∧
      ∀ x, pos ≤ x → x < j → bfs.matchAt b.buf x pat = false := by
  unfold bfs.findSub at h
  have hlp : pat.length ≠ 0 := by simpa using hp
  rw [if_neg hlp] at h
  by_cases hrange : b.len < pos + pat.length
  · rw [if_pos hrange] at h; cases h
  · rw [if_neg hrange] at h
    obtain ⟨h1, h2, h3, h4⟩ := findFrom_some_spec b.buf pat _ pos j h
    exact ⟨h1, by omega, h3, h4⟩

theorem findSub_none_spec (b : Buf) (pat : List Nat) (pos : Nat)
    (hp : pat ≠ []) (h : bfs.findSub b pat pos = none) :
    ∀ x, pos ≤ x → x + pat.length ≤ b.len → bfs.matchAt b.buf x pat = false := by
  unfold bfs.findSub at h
  have hlp : pat.length ≠ 0 := by simpa using hp
  rw [if_neg hlp] at h
  intro x hx1 hx2
  by_cases hrange : b.len < pos + pat.length
  · omega
  · rw [if_neg hrange] at h
    exact findFrom_none_spec b.buf pat _ pos h x hx1 (by omega)

theorem refCount_zero_of_no_match (pat : List Nat) (hp : pat ≠ []) :
    ∀ u : List Nat, (∀ k, k + pat.length ≤ u.length → pat.isPrefixOf (u.drop k) = false) →
    ref.refCount pat u = 0 := by
  intro u
  induction u with
  | nil => intro _; rw [ref.refCount]; simp
  | cons a t ih =>
    intro hno
    rw [ref.refCount, dif_neg (by simp : ¬(a :: t) = [])]
    have hnp : ¬(pat ≠ [] ∧ pat.isPrefixOf (a :: t) = true) := by
      rintro ⟨-, hpre⟩
      have hle : pat.length ≤ (a :: t).length :=
        List.IsPrefix.length_le (List.isPrefixOf_iff_prefix.mp hpre)
      have h0 := hno 0 (by omega)
      rw [List.drop_zero] at h0
      rw [h0] at hpre
      cases hpre
    rw [dif_neg hnp]
    have hdrop1 : (a :: t).drop 1 = t := rfl
    rw [hdrop1]
    apply ih
    intro k hk
    have hk1 := hno (k + 1) (by simp only [List.length_cons]; omega)
    simpa using hk1

theorem refCount_step (pat : List Nat) (hp : pat ≠ []) : ∀ (j : Nat) (u : List Nat),
    j + pat.length ≤ u.length →
    pat.isPrefixOf (u.drop j) = true →
    (∀ x, x < j → pat.isPrefixOf (u.drop x) = false) →
    ref.refCount pat u = 1 + ref.refCount pat (u.drop (j + pat.length)) := by
  intro j
  induction j with
  | zero =>
    intro u hfit hmatch _
    have hplen : 0 < pat.length := List.length_pos.mpr hp
    have hu : u ≠ [] := by
      intro hc
      rw [hc] at hfit
      simp only [List.length_nil] at hfit
      omega
    rw [ref.refCount, dif_neg hu]
    simp only [List.drop_zero] at hmatch
    rw [dif_pos ⟨hp, hmatch⟩]
    have : (0 : Nat) + pat.length = pat.length := by omega
    rw [this]
  | succ j ih =>
    intro u hfit hmatch hno
    have hplen : 0 < pat.length := List.length_pos.mpr hp
    have hu : u ≠ [] := by
      intro hc
      rw [hc] at hfit
      simp only [List.length_nil] at hfit
      omega
    rw [ref.refCount, dif_neg hu]
    have hnp : ¬(pat ≠ [] ∧ pat.isPrefixOf u = true) := by
      rintro ⟨-, hpre⟩
      have h0 := hno 0 (by omega)
      rw [List.drop_zero] at h0
      rw [h0] at hpre
      cases hpre
    rw [dif_neg hnp]
    have hstep := ih (u.drop 1)
      (by rw [List.length_drop]; omega)
      (by
        rw [List.drop_drop]
        have heq : 1 + j = j + 1 := by omega
        rw [heq]
        exact hmatch)
      (by
        intro x hx
        rw [List.drop_drop]
        have heq : 1 + x = x + 1 := by omega
        rw [heq]
        exact hno (x + 1) (by omega))
    rw [hstep, List.drop_drop]
    have harith : 1 + (j + pat.length) = j + 1 + pat.length := by omega
    rw [harith]

theorem countSubGo_spec (b : Buf) (pat : List Nat) (hwf : wf b) (hp : pat ≠ []) :
    ∀ (fuel pos : Nat), b.len + 1 ≤ fuel + pos →
    bfs.countSubGo b pat pos fuel = ref.refCount pat ((content b).drop pos) := by
  have hplen : 0 < pat.length := List.length_pos.mpr hp
  have hclen : (content b).length = b.len := content_length b hwf
  intro fuel
  induction fuel with
  | zero =>
    intro pos hfuel
    rw [bfs.countSubGo]
    have hdrop : (content b).drop pos = [] := by
      apply List.drop_eq_nil_of_le
      omega
    rw [hdrop, ref.refCount]
    simp
  | succ fuel ih =>
    intro pos hfuel
    rw [bfs.countSubGo]
    by_cases hpos : pos < b.len
    · rw [if_pos hpos]
      cases hfind : bfs.findSub b pat pos with
      | none =>
        have hno := findSub_none_spec b pat pos hp hfind
        rw [refCount_zero_of_no_match pat hp ((content b).drop pos) ?_]
        intro k hk
        rw [List.length_drop, hclen] at hk
        rw [List.drop_drop, isPrefixOf_iff_matchAt b pat (pos + k),
          matchAt_content b pat (pos + k) hwf (by omega)]
        exact hno (pos + k) (by omega) (by omega)
      | some found =>
        obtain ⟨h1, h2, h3, h4⟩ := findSub_some_spec b pat pos found hp hfind
        show 1 + bfs.countSubGo b pat (found + pat.length) fuel =
          ref.refCount pat ((content b).drop pos)
        have hstep := refCount_step pat hp (found - pos) ((content b).drop pos)
          (by rw [List.length_drop, hclen]; omega)
          (by
            rw [List.drop_drop]
            have heq : pos + (found - pos) = found := by omega
            rw [heq, isPrefixOf_iff_matchAt b pat found,
              matchAt_content b pat found hwf (by omega)]
            exact h3)
          (by
            intro x hx
            rw [List.drop_drop, isPrefixOf_iff_matchAt b pat (pos + x),
              matchAt_content b pat (pos + x) hwf (by omega)]
            exact h4 (pos + x) (by omega) (by omega))
        rw [hstep, List.drop_drop]
        have heq : pos + (found - pos + pat.length) = found + pat.length := by omega
        rw [heq]
        rw [ih (found + pat.length) (by omega)]
    · rw [if_neg hpos]
      have hdrop : (content b).drop pos = [] := by
        apply List.drop_eq_nil_of_le
        omega
      rw [hdrop, ref.refCount]
      simp

/-- C5 counterexample: the claim asserts that the substring count of ll in
hello is 0, but hello contains one ll occurrence and the code counts it. -/
theorem C5_counterexample :
    bfs.count_sub (bfs.fromPtrLen 5 [104, 101, 108, 108, 111] 5) [108, 108] = 1 ∧
    (1 : Nat) ≠ 0 := by decide

/-- C5 amended: count(str, needle) for a non-empty needle equals the
greedy non-overlapping occurrence count, which advances the scan past each
match; count of l in hello world is 3 and count of ll in hello is 1. -/
theorem C5_count_is_nonoverlapping (b : Buf) (pat : List Nat)
    (hwf : wf b) (hp : pat ≠ []) :
    bfs.count_sub b pat = ref.refCount pat (content b) ∧
    bfs.count_sub (bfs.fromPtrLen 11 [104, 101, 108, 108, 111, 32, 119, 111, 114, 108, 100] 11)
      [108] = 3 ∧
    bfs.count_sub (bfs.fromPtrLen 5 [104, 101, 108, 108, 111] 5) [108, 108] = 1 := by
  refine ⟨?_, by decide, by decide⟩
  unfold bfs.count_sub
  rw [if_neg (by simpa using hp)]
  have := countSubGo_spec b pat hwf hp (b.len + 1) 0 (by omega)
  rw [this]
  simp

theorem C5_witness :
    wf (bfs.fromPtrLen 5 [104, 101, 108, 108, 111] 5) ∧ ([108] : List Nat) ≠ [] ∧
    (bfs.count_sub (bfs.fromPtrLen 5 [104, 101, 108, 108, 111] 5) [108] =
      ref.refCount [108] (content (bfs.fromPtrLen 5 [104, 101, 108, 108, 111] 5)) ∧
    bfs.count_sub (bfs.fromPtrLen 11 [104, 101, 108, 108, 111, 32, 119, 111, 114, 108, 100] 11)
      [108] = 3 ∧
    bfs.count_sub (bfs.fromPtrLen 5 [104, 101, 108, 108, 111] 5) [108, 108] = 1) :=
  ⟨by decide, by decide,
    C5_count_is_nonoverlapping (bfs.fromPtrLen 5 [104, 101, 108, 108, 111] 5) [108]
      (by decide) (by decide)⟩

/-! Claim C7: to_title. -/

theorem pushCapped_eq_append (cap : Nat) (cur : List Nat) (c : Nat) (h : cur.length < cap) :
    pushCapped cap cur c = cur ++ [c] := by
  unfold pushCapped
  rw [if_pos h]

theorem ws_not_alpha (c : Nat) (h : str.is_whitespace c = true) : str.is_alpha c = false := by
  have hc : c = 32 ∨ c = 9 ∨ c = 10 ∨ c = 13 := by
    simpa [str.is_whitespace] using h
  rcases hc with h | h | h | h <;> subst h <;> rfl

/-- Per-unit action the to_title loop implements: an alphabetic unit is
uppercased exactly when the unit before it is whitespace (in the
four-character whitespace set of case.hpp), other alphabetic units are
lowercased, anything else passes through unchanged. -/
def titleStep (c p : Nat) : Nat :=
  if str.is_alpha c then
    if str.is_whitespace p then str.char_to_upper c else str.char_to_lower c
  else c

theorem toTitleGo_spec (cap : Nat) : ∀ (s acc : List Nat) (prev : Nat),
    acc.length + s.length ≤ cap →
    str.toTitleGo cap acc (str.is_whitespace prev) s =
      acc ++ List.zipWith titleStep s (prev :: s) := by
  intro s
  induction s with
  | nil =>
    intro acc prev _
    simp [str.toTitleGo]
  | cons c rest ih =>
    intro acc prev h
    have hlt : acc.length < cap := by
      simp only [List.length_cons] at h
      omega
    rw [str.toTitleGo]
    by_cases hws : str.is_whitespace c = true
    · rw [if_pos hws, pushCapped_eq_append cap acc c hlt]
      conv_lhs => rw [← hws]
      rw [ih (acc ++ [c]) c (by simp only [List.length_append, List.length_cons, List.length_nil] at h ⊢; omega)]
      have hstep : titleStep c prev = c := by
        unfold titleStep
        rw [ws_not_alpha c hws]
        simp
      simp [hstep, List.append_assoc]
    · rw [if_neg hws]
      have hwsf : str.is_whitespace c = false := by
        cases hcase : str.is_whitespace c
        · rfl
        · exact absurd hcase hws
      by_cases hal : str.is_alpha c = true
      · rw [if_pos hal, pushCapped_eq_append cap acc _ hlt]
        conv_lhs => rw [show false = str.is_whitespace c from hwsf.symm]
        rw [ih (acc ++ [if str.is_whitespace prev = true then str.char_to_upper c
          else str.char_to_lower c]) c
          (by simp only [List.length_append, List.length_cons, List.length_nil] at h ⊢; omega)]
        have hstep : titleStep c prev =
            if str.is_whitespace prev = true then str.char_to_upper c
            else str.char_to_lower c := by
          unfold titleStep
          rw [hal]
          simp
        simp [hstep, List.append_assoc]
      · rw [if_neg hal, pushCapped_eq_append cap acc c hlt]
        have half : str.is_alpha c = false := by
          cases hcase : str.is_alpha c
          · rfl
          · exact absurd hcase hal
        conv_lhs => rw [show false = str.is_whitespace c from hwsf.symm]
        rw [ih (acc ++ [c]) c
          (by simp only [List.length_append, List.length_cons, List.length_nil] at h ⊢; omega)]
        have hstep : titleStep c prev = c := by
          unfold titleStep
          rw [half]
          simp
        simp [hstep, List.append_assoc]

/-- C7 counterexample: on the input a, form-feed, b the code leaves b
lowercased because is_whitespace of case.hpp does not treat form-feed as
whitespace, while the claim (six-character whitespace set) demands an
uppercase B. -/
theorem C7_counterexample :
    str.to_title 3 [97, 12, 98] = [65, 12, 98] ∧
    ref.titleClaim [97, 12, 98] = [65, 12, 66] ∧
    str.to_title 3 [97, 12, 98] ≠ ref.titleClaim [97, 12, 98] := by decide

/-- C7 amended: to_title uppercases exactly those alphabetic units whose
preceding unit (a virtual leading space at the string start) is
whitespace, lowercases all other alphabetic units and passes the rest
through, where the whitespace set of case.hpp is exactly space, tab, LF
and CR, without form-feed and vertical-tab. -/
theorem C7_to_title_pointwise (cap : Nat) (s : List Nat) (h : s.length ≤ cap) :
    str.to_title cap s = List.zipWith titleStep s (32 :: s) ∧
    str.is_whitespace 32 = true ∧ str.is_whitespace 9 = true ∧
    str.is_whitespace 10 = true ∧ str.is_whitespace 13 = true ∧
    str.is_whitespace 12 = false ∧ str.is_whitespace 11 = false := by
  refine ⟨?_, rfl, rfl, rfl, rfl, rfl, rfl⟩
  unfold str.to_title
  conv_lhs => rw [show (true : Bool) = str.is_whitespace 32 from rfl]
  rw [toTitleGo_spec cap s [] 32 (by simpa using h)]
  simp

theorem C7_witness :
    ([104, 101, 108, 108, 111, 32, 119, 111, 114, 108, 100] : List Nat).length ≤ 11 ∧
    (str.to_title 11 [104, 101, 108, 108, 111, 32, 119, 111, 114, 108, 100] =
      List.zipWith titleStep [104, 101, 108, 108, 111, 32, 119, 111, 114, 108, 100]
        (32 :: [104, 101, 108, 108, 111, 32, 119, 111, 114, 108, 100]) ∧
      str.is_whitespace 32 = true ∧ str.is_whitespace 9 = true ∧
      str.is_whitespace 10 = true ∧ str.is_whitespace 13 = true ∧
      str.is_whitespace 12 = false ∧ str.is_whitespace 11 = false) :=
  ⟨by decide, C7_to_title_pointwise 11
    [104, 101, 108, 108, 111, 32, 119, 111, 114, 108, 100] (by decide)⟩

/-! Claim C3: split by character. -/

theorem modifyHead_nil_append : ∀ S : List (List Nat),
    (S.modifyHead fun t => ([] : List Nat) ++ t) = S := by
  intro S
  cases S with
  | nil => rfl
  | cons a t => simp [List.modifyHead]

theorem splitOnRef_ne_nil (d : Nat) : ∀ s : List Nat, ref.splitOnRef d s ≠ [] := by
  intro s
  cases s with
  | nil => simp [ref.splitOnRef]
  | cons c rest =>
    rw [ref.splitOnRef]
    by_cases hc : c = d
    · rw [if_pos hc]; simp
    · rw [if_neg hc]
      cases hcase : ref.splitOnRef d rest with
      | nil => exact absurd hcase (splitOnRef_ne_nil d rest)
      | cons a t => simp [List.modifyHead]

theorem filter_singleton_ne (cur : List Nat) (h : cur ≠ []) :
    List.filter (fun t => !t.isEmpty) [cur] = [cur] := by
  cases cur with
  | nil => exact absurd rfl h
  | cons a t => rfl

theorem splitGo_spec (cap maxParts d : Nat) : ∀ (s cur : List Nat) (cnt : Nat),
    cur.length + s.length ≤ cap →
    str.splitGo cap maxParts d s cur cnt =
      (((ref.splitOnRef d s).modifyHead (fun t => cur ++ t)).filter
        (fun t => !t.isEmpty)).take (maxParts - cnt) := by
  intro s
  induction s with
  | nil =>
    intro cur cnt _
    rw [str.splitGo]
    have h1 : (ref.splitOnRef d []).modifyHead (fun t => cur ++ t) = [cur] := by
      show List.modifyHead (fun t => cur ++ t) [[]] = [cur]
      simp [List.modifyHead]
    rw [h1]
    by_cases hcur : cur = []
    · subst hcur
      rw [if_neg (by simp)]
      simp
    · by_cases hcnt : cnt < maxParts
      · rw [if_pos ⟨hcur, hcnt⟩, filter_singleton_ne cur hcur,
          List.take_of_length_le (by simp; omega)]
      · rw [if_neg (by tauto)]
        have h0 : maxParts - cnt = 0 := by omega
        rw [h0]
        simp
  | cons c rest ih =>
    intro cur cnt h
    rw [str.splitGo, ref.splitOnRef]
    by_cases hcd : c = d
    · rw [if_pos hcd, if_pos hcd]
      have hmh : (([] :: ref.splitOnRef d rest).modifyHead fun t => cur ++ t) =
          cur :: ref.splitOnRef d rest := by
        simp [List.modifyHead]
      rw [hmh]
      by_cases hg : cur ≠ [] ∧ cnt < maxParts
      · rw [if_pos hg]
        rw [ih [] (cnt + 1) (by simp only [List.length_cons, List.length_nil] at h ⊢; omega)]
        rw [modifyHead_nil_append]
        have hfc : List.filter (fun t => !t.isEmpty) (cur :: ref.splitOnRef d rest) =
            cur :: List.filter (fun t => !t.isEmpty) (ref.splitOnRef d rest) := by
          rw [List.filter_cons]
          have : (!cur.isEmpty) = true := by
            cases cur
            · exact absurd rfl hg.1
            · rfl
          rw [this]
          simp
        rw [hfc]
        have hsucc : maxParts - cnt = (maxParts - (cnt + 1)) + 1 := by omega
        rw [hsucc, List.take_succ_cons]
      · rw [if_neg hg]
        rw [ih cur cnt (by simp only [List.length_cons] at h ⊢; omega)]
        by_cases hcur : cur = []
        · subst hcur
          rw [modifyHead_nil_append]
          have hfc : List.filter (fun t => !t.isEmpty) ([] :: ref.splitOnRef d rest) =
              List.filter (fun t => !t.isEmpty) (ref.splitOnRef d rest) := by
            rw [List.filter_cons]
            simp
          rw [hfc]
        · have hcnt : ¬cnt < maxParts := by tauto
          have h0 : maxParts - cnt = 0 := by omega
          rw [h0]
          simp
    · rw [if_neg hcd, if_neg hcd]
      have hlt : cur.length < cap := by
        simp only [List.length_cons] at h
        omega
      rw [pushCapped_eq_append cap cur c hlt]
      rw [ih (cur ++ [c]) cnt
        (by simp only [List.length_append, List.length_cons, List.length_nil] at h ⊢; omega)]
      obtain ⟨a, t, hat⟩ : ∃ a t, ref.splitOnRef d rest = a :: t := by
        cases hcase : ref.splitOnRef d rest with
        | nil => exact absurd hcase (splitOnRef_ne_nil d rest)
        | cons a t => exact ⟨a, t, rfl⟩
      rw [hat]
      have hm1 : ((a :: t).modifyHead fun u => (cur ++ [c]) ++ u) =
          ((cur ++ [c]) ++ a) :: t := by simp [List.modifyHead]
      have hm2 : (((a :: t).modifyHead fun u => c :: u).modifyHead fun u => cur ++ u) =
          (cur ++ c :: a) :: t := by simp [List.modifyHead]
      rw [hm1, hm2]
      simp [List.append_assoc]

/-- C3: split emits only the non-empty maximal runs between delimiters
(empty tokens from consecutive, leading or trailing delimiters are
dropped) and keeps at most the first maxParts of them; in particular
splitting a,,b on the comma yields exactly the two tokens a and b. -/
theorem C3_split_keeps_nonempty_runs (cap maxParts d : Nat) (s : List Nat)
    (h : s.length ≤ cap) :
    str.split_char cap maxParts s d = (ref.tokensOf d s).take maxParts ∧
    str.split_char 4 16 [97, 44, 44, 98] 44 = [[97], [98]] := by
  refine ⟨?_, by decide⟩
  unfold str.split_char ref.tokensOf
  rw [splitGo_spec cap maxParts d s [] 0 (by simpa using h), modifyHead_nil_append,
    Nat.sub_zero]

theorem C3_witness :
    ([97, 44, 44, 98] : List Nat).length ≤ 4 ∧
    (str.split_char 4 16 [97, 44, 44, 98] 44 = (ref.tokensOf 44 [97, 44, 44, 98]).take 16 ∧
      str.split_char 4 16 [97, 44, 44, 98] 44 = [[97], [98]]) :=
  ⟨by decide, C3_split_keeps_nonempty_runs 4 16 44 [97, 44, 44, 98] (by decide)⟩

/-! Claim C6: rsplit versus split. -/

theorem appendLast_cons_of_ne_nil (c : Nat) (t : List Nat) (ts : List (List Nat))
    (h : ts ≠ []) : ref.appendLast c (t :: ts) = t :: ref.appendLast c ts := by
  cases ts with
  | nil => exact absurd rfl h
  | cons t2 u => rfl

theorem appendLast_concat (c : Nat) : ∀ (xs : List (List Nat)) (y : List Nat),
    ref.appendLast c (xs ++ [y]) = xs ++ [y ++ [c]] := by
  intro xs
  induction xs with
  | nil => intro y; rfl
  | cons x xs ih =>
    intro y
    rw [List.cons_append, appendLast_cons_of_ne_nil c x (xs ++ [y]) (by simp), ih]
    rfl

theorem modifyHead_append_of_ne_nil (f : List Nat → List Nat) (l m : List (List Nat))
    (h : l ≠ []) : (l ++ m).modifyHead f = l.modifyHead f ++ m := by
  cases l with
  | nil => exact absurd rfl h
  | cons a t => rfl

theorem modifyHead_appendLast (y c : Nat) (S : List (List Nat)) (h : S ≠ []) :
    (ref.appendLast c S).modifyHead (fun u => y :: u) =
      ref.appendLast c (S.modifyHead (fun u => y :: u)) := by
  cases S with
  | nil => exact absurd rfl h
  | cons a t =>
    cases t with
    | nil => simp [ref.appendLast, List.modifyHead]
    | cons a2 u =>
      rw [appendLast_cons_of_ne_nil c a (a2 :: u) (by simp)]
      rfl

theorem splitOnRef_append_delim (d : Nat) : ∀ ys : List Nat,
    ref.splitOnRef d (ys ++ [d]) = ref.splitOnRef d ys ++ [[]] := by
  intro ys
  induction ys with
  | nil => simp [ref.splitOnRef]
  | cons y ys ih =>
    rw [List.cons_append, ref.splitOnRef, ref.splitOnRef]
    by_cases hy : y = d
    · rw [if_pos hy, if_pos hy, ih]
      rfl
    · rw [if_neg hy, if_neg hy, ih,
        modifyHead_append_of_ne_nil _ _ _ (splitOnRef_ne_nil d ys)]

theorem splitOnRef_append_other (d c : Nat) (hc : c ≠ d) : ∀ ys : List Nat,
    ref.splitOnRef d (ys ++ [c]) = ref.appendLast c (ref.splitOnRef d ys) := by
  intro ys
  induction ys with
  | nil => simp [ref.splitOnRef, if_neg hc, ref.appendLast, List.modifyHead]
  | cons y ys ih =>
    rw [List.cons_append, ref.splitOnRef, ref.splitOnRef]
    by_cases hy : y = d
    · rw [if_pos hy, if_pos hy, ih,
        appendLast_cons_of_ne_nil c [] (ref.splitOnRef d ys) (splitOnRef_ne_nil d ys)]
    · rw [if_neg hy, if_neg hy, ih,
        modifyHead_appendLast y c (ref.splitOnRef d ys) (splitOnRef_ne_nil d ys)]

theorem splitOnRef_reverse (d : Nat) : ∀ s : List Nat,
    ref.splitOnRef d s.reverse = ((ref.splitOnRef d s).map List.reverse).reverse := by
  intro s
  induction s with
  | nil => rfl
  | cons c rest ih =>
    rw [List.reverse_cons]
    by_cases hc : c = d
    · rw [hc, splitOnRef_append_delim d rest.reverse, ih, ref.splitOnRef, if_pos rfl]
      simp
    · rw [splitOnRef_append_other d c hc rest.reverse, ih, ref.splitOnRef, if_neg hc]
      obtain ⟨a, t, hat⟩ : ∃ a t, ref.splitOnRef d rest = a :: t := by
        cases hcase : ref.splitOnRef d rest with
        | nil => exact absurd hcase (splitOnRef_ne_nil d rest)
        | cons a t => exact ⟨a, t, rfl⟩
      rw [hat]
      have hm : ((a :: t).modifyHead fun u => c :: u) = (c :: a) :: t := rfl
      rw [hm]
      simp only [List.map_cons, List.reverse_cons]
      rw [appendLast_concat]

theorem isEmpty_false_of_ne_nil (l : List Nat) (h : l ≠ []) : l.isEmpty = false := by
  cases l with
  | nil => exact absurd rfl h
  | cons a t => rfl

theorem isEmpty_reverse (t : List Nat) : t.reverse.isEmpty = t.isEmpty := by
  cases t with
  | nil => rfl
  | cons a u =>
    rw [isEmpty_false_of_ne_nil ((a :: u).reverse) (by simp),
      isEmpty_false_of_ne_nil (a :: u) (by simp)]

theorem tokensOf_reverse (d : Nat) (s : List Nat) :
    ref.tokensOf d s.reverse = ((ref.tokensOf d s).map List.reverse).reverse := by
  unfold ref.tokensOf
  rw [splitOnRef_reverse d s, List.filter_reverse, List.filter_map]
  congr 1
  congr 1
  apply List.filter_congr
  intro t _
  show (!t.reverse.isEmpty) = (!t.isEmpty)
  rw [isEmpty_reverse]

theorem rsplitGo_spec (cap maxParts d : Nat) : ∀ (rem cur : List Nat) (cnt : Nat),
    cur.length + rem.length ≤ cap →
    str.rsplitGo cap maxParts d rem cur cnt =
      ((((ref.splitOnRef d rem).modifyHead (fun t => cur ++ t)).filter
        (fun t => !t.isEmpty)).map List.reverse).take (maxParts - cnt) := by
  intro rem
  induction rem with
  | nil =>
    intro cur cnt _
    rw [str.rsplitGo]
    have h1 : (ref.splitOnRef d []).modifyHead (fun t => cur ++ t) = [cur] := by
      show List.modifyHead (fun t => cur ++ t) [[]] = [cur]
      simp [List.modifyHead]
    rw [h1]
    by_cases hcur : cur = []
    · subst hcur
      rw [if_neg (by simp)]
      simp
    · by_cases hcnt : cnt < maxParts
      · rw [if_pos ⟨hcur, hcnt⟩, filter_singleton_ne cur hcur]
        have hmap : List.map List.reverse [cur] = [cur.reverse] := rfl
        rw [hmap, List.take_of_length_le (by simp; omega)]
      · rw [if_neg (by tauto)]
        have h0 : maxParts - cnt = 0 := by omega
        rw [h0]
        simp
  | cons c rest ih =>
    intro cur cnt h
    rw [str.rsplitGo, ref.splitOnRef]
    by_cases hcnt : cnt < maxParts
    · rw [if_pos hcnt]
      by_cases hcd : c = d
      · rw [if_pos hcd, if_pos hcd]
        have hmh : (([] :: ref.splitOnRef d rest).modifyHead fun t => cur ++ t) =
            cur :: ref.splitOnRef d rest := by
          simp [List.modifyHead]
        rw [hmh]
        by_cases hcur : cur ≠ []
        · rw [if_pos hcur]
          rw [ih [] (cnt + 1) (by simp only [List.length_cons, List.length_nil] at h ⊢; omega)]
          rw [modifyHead_nil_append]
          have hfc : List.filter (fun t => !t.isEmpty) (cur :: ref.splitOnRef d rest) =
              cur :: List.filter (fun t => !t.isEmpty) (ref.splitOnRef d rest) := by
            rw [List.filter_cons]
            have : (!cur.isEmpty) = true := by
              cases cur
              · exact absurd rfl hcur
              · rfl
            rw [this]
            simp
          rw [hfc, List.map_cons]
          have hsucc : maxParts - cnt = (maxParts - (cnt + 1)) + 1 := by omega
          rw [hsucc, List.take_succ_cons]
        · have hcur2 : cur = [] := not_not.mp hcur
          rw [if_neg hcur]
          subst hcur2
          rw [ih [] cnt (by simp only [List.length_cons, List.length_nil] at h ⊢; omega)]
          rw [modifyHead_nil_append]
          have hfc : List.filter (fun t => !t.isEmpty) (([] : List Nat) :: ref.splitOnRef d rest) =
              List.filter (fun t => !t.isEmpty) (ref.splitOnRef d rest) := by
            rw [List.filter_cons]
            simp
          rw [hfc]
      · rw [if_neg hcd, if_neg hcd]
        have hlt : cur.length < cap := by
          simp only [List.length_cons] at h
          omega
        rw [pushCapped_eq_append cap cur c hlt]
        rw [ih (cur ++ [c]) cnt
          (by simp only [List.length_append, List.length_cons, List.length_nil] at h ⊢; omega)]
        obtain ⟨a, t, hat⟩ : ∃ a t, ref.splitOnRef d rest = a :: t := by
          cases hcase : ref.splitOnRef d rest with
          | nil => exact absurd hcase (splitOnRef_ne_nil d rest)
          | cons a t => exact ⟨a, t, rfl⟩
        rw [hat]
        have hm1 : ((a :: t).modifyHead fun u => (cur ++ [c]) ++ u) =
            ((cur ++ [c]) ++ a) :: t := by simp [List.modifyHead]
        have hm2 : (((a :: t).modifyHead fun u => c :: u).modifyHead fun u => cur ++ u) =
            (cur ++ c :: a) :: t := by simp [List.modifyHead]
        rw [hm1, hm2]
        simp [List.append_assoc]
    · rw [if_neg hcnt]
      have h0 : maxParts - cnt = 0 := by omega
      rw [h0]
      simp

/-- C6 counterexample: on seventeen single-character tokens with the
default MaxParts of 16, split keeps the first sixteen tokens while rsplit
keeps the last sixteen, so the two results differ. -/
theorem C6_counterexample :
    (ref.tokensOf 44
      [97, 44, 98, 44, 99, 44, 100, 44, 101, 44, 102, 44, 103, 44, 104, 44, 105, 44,
        106, 44, 107, 44, 108, 44, 109, 44, 110, 44, 111, 44, 112, 44, 113]).length = 17 ∧
    str.rsplit_char 33 16
      [97, 44, 98, 44, 99, 44, 100, 44, 101, 44, 102, 44, 103, 44, 104, 44, 105, 44,
        106, 44, 107, 44, 108, 44, 109, 44, 110, 44, 111, 44, 112, 44, 113] 44 ≠
    str.split_char 33 16
      [97, 44, 98, 44, 99, 44, 100, 44, 101, 44, 102, 44, 103, 44, 104, 44, 105, 44,
        106, 44, 107, 44, 108, 44, 109, 44, 110, 44, 111, 44, 112, 44, 113] 44 := by decide

/-- C6 amended: rsplit produces the same tokens as split, in the same
left-to-right order and under the same empty-token-skip policy, whenever
the number of non-empty tokens does not exceed MaxParts; when it does,
split keeps the first MaxParts tokens while rsplit keeps the last
MaxParts, and the results differ. -/
theorem C6_rsplit_eq_split_within_maxparts (cap maxParts d : Nat) (s : List Nat)
    (h1 : s.length ≤ cap) (h2 : (ref.tokensOf d s).length ≤ maxParts) :
    str.rsplit_char cap maxParts s d = str.split_char cap maxParts s d := by
  unfold str.rsplit_char
  rw [rsplitGo_spec cap maxParts d s.reverse [] 0
    (by simp only [List.length_nil, List.length_reverse]; omega),
    modifyHead_nil_append, Nat.sub_zero]
  have hT : (ref.splitOnRef d s.reverse).filter (fun t => !t.isEmpty) =
      ref.tokensOf d s.reverse := rfl
  rw [hT, tokensOf_reverse d s, List.map_reverse]
  have hrr : ((ref.tokensOf d s).map List.reverse).map List.reverse = ref.tokensOf d s := by
    rw [List.map_map]
    have hid : (List.reverse ∘ List.reverse : List Nat → List Nat) = id := by
      funext t
      simp
    rw [hid, List.map_id]
  rw [hrr]
  rw [List.take_of_length_le (by rw [List.length_reverse]; exact h2), List.reverse_reverse]
  unfold str.split_char
  rw [splitGo_spec cap maxParts d s [] 0 (by simpa using h1), modifyHead_nil_append,
    Nat.sub_zero]
  have hT2 : (ref.splitOnRef d s).filter (fun t => !t.isEmpty) = ref.tokensOf d s := rfl
  rw [hT2, List.take_of_length_le h2]

theorem C6_witness :
    ([97, 44, 98] : List Nat).length ≤ 3 ∧ (ref.tokensOf 44 [97, 44, 98]).length ≤ 16 ∧
    str.rsplit_char 3 16 [97, 44, 98] 44 = str.split_char 3 16 [97, 44, 98] 44 :=
  ⟨by decide, by decide,
    C6_rsplit_eq_split_within_maxparts 3 16 44 [97, 44, 98] (by decide) (by decide)⟩

/-! Claim C4: integer format and parse round trip. -/

theorem foldl_pushCapped_eq_append (cap : Nat) : ∀ (l acc : List Nat),
    acc.length + l.length ≤ cap → l.foldl (pushCapped cap) acc = acc ++ l := by
  intro l
  induction l with
  | nil => intro acc _; simp
  | cons c rest ih =>
    intro acc h
    rw [List.foldl_cons,
      pushCapped_eq_append cap acc c (by simp only [List.length_cons] at h; omega)]
    rw [ih (acc ++ [c])
      (by simp only [List.length_append, List.length_cons, List.length_nil] at h ⊢; omega)]
    simp

theorem digitsRev_mem : ∀ n : Nat, ∀ c ∈ fmt.digitsRev n, 48 ≤ c ∧ c ≤ 57 := by
  intro n
  induction n using Nat.strong_induction_on with
  | _ n ih =>
    intro c hc
    rw [fmt.digitsRev] at hc
    by_cases hn : n = 0
    · rw [dif_pos hn] at hc
      cases hc
    · rw [dif_neg hn] at hc
      rcases List.mem_cons.mp hc with h | h
      · subst h
        have : n % 10 < 10 := Nat.mod_lt n (by omega)
        omega
      · exact ih (n / 10) (Nat.div_lt_self (Nat.pos_of_ne_zero hn) (by omega)) c h

theorem digitsRev_length_le : ∀ (k n : Nat), n < 10 ^ k → (fmt.digitsRev n).length ≤ k := by
  intro k
  induction k with
  | zero =>
    intro n h
    have hn : n = 0 := by simpa using h
    subst hn
    rw [fmt.digitsRev]
    simp
  | succ k ih =>
    intro n h
    rw [fmt.digitsRev]
    by_cases hn : n = 0
    · rw [dif_pos hn]; simp
    · rw [dif_neg hn]
      simp only [List.length_cons]
      have hdiv : n / 10 < 10 ^ k := by
        apply Nat.div_lt_of_lt_mul
        have : 10 ^ (k + 1) = 10 ^ k * 10 := by ring
        omega
      have := ih (n / 10) hdiv
      omega

theorem digitsRev_ne_nil (n : Nat) (h : n ≠ 0) : fmt.digitsRev n ≠ [] := by
  rw [fmt.digitsRev, dif_neg h]
  simp

/-- Accumulator step of decimal digit parsing, on the digit characters. -/
def digitFold (x : Int) (c : Nat) : Int := x * 10 + ((c : Int) - 48)

theorem parse_int64_cons (c : Nat) (rest : List Nat) :
    fmt.parse_int64 (c :: rest) 10 =
      if c = 45 then fmt.wrap64 (-fmt.parseLoop 10 rest 0)
      else if c = 43 then fmt.parseLoop 10 rest 0
      else fmt.parseLoop 10 (c :: rest) 0 := rfl

theorem foldl_digits_value : ∀ (n : Nat) (a : Int),
    ((fmt.digitsRev n).reverse).foldl digitFold a =
      a * (10 : Int) ^ (fmt.digitsRev n).length + n := by
  intro n
  induction n using Nat.strong_induction_on with
  | _ n ih =>
    intro a
    by_cases hn : n = 0
    · subst hn
      rw [fmt.digitsRev]
      simp
    · rw [fmt.digitsRev, dif_neg hn, List.reverse_cons, List.foldl_append]
      rw [ih (n / 10) (Nat.div_lt_self (Nat.pos_of_ne_zero hn) (by omega)) a]
      simp only [List.foldl_cons, List.foldl_nil, List.length_cons, digitFold]
      have hdm : (10 : Int) * ((n / 10 : Nat) : Int) + ((n % 10 : Nat) : Int) = (n : Int) := by
        exact_mod_cast Nat.div_add_mod n 10
      have hcast : ((n % 10 + 48 : Nat) : Int) - 48 = ((n % 10 : Nat) : Int) := by
        push_cast
        ring
      rw [hcast]
      have hpow : (10 : Int) ^ ((fmt.digitsRev (n / 10)).length + 1) =
          10 ^ (fmt.digitsRev (n / 10)).length * 10 := by ring
      rw [hpow]
      nlinarith [hdm]

theorem wrap64_eq_self (x : Int) (h1 : -(2 ^ 63) ≤ x) (h2 : x < 2 ^ 63) :
    fmt.wrap64 x = x := by
  unfold fmt.wrap64
  have h63 : (2 : Int) ^ 63 = 9223372036854775808 := by norm_num
  have h64 : (2 : Int) ^ 64 = 18446744073709551616 := by norm_num
  rw [h63, h64] at *
  omega

theorem wrap64_emod (a : Int) : fmt.wrap64 a % 2 ^ 64 = a % 2 ^ 64 := by
  unfold fmt.wrap64
  have h63 : (2 : Int) ^ 63 = 9223372036854775808 := by norm_num
  have h64 : (2 : Int) ^ 64 = 18446744073709551616 := by norm_num
  rw [h63, h64]
  omega

theorem wrap64_congr (x y : Int) (h : x % 2 ^ 64 = y % 2 ^ 64) :
    fmt.wrap64 x = fmt.wrap64 y := by
  unfold fmt.wrap64
  have h64 : (2 : Int) ^ 64 = 18446744073709551616 := by norm_num
  rw [h64] at *
  omega

theorem parseLoop_digits : ∀ (ds : List Nat), (∀ c ∈ ds, 48 ≤ c ∧ c ≤ 57) →
    ∀ a : Int, fmt.parseLoop 10 ds (fmt.wrap64 a) =
      fmt.wrap64 (ds.foldl digitFold a) := by
  intro ds
  induction ds with
  | nil => intro _ a; rfl
  | cons c rest ih =>
    intro hds a
    have hc := hds c (List.mem_cons_self c rest)
    have hd : fmt.digitOfChar c = (c : Int) - 48 := by
      unfold fmt.digitOfChar
      rw [if_pos ⟨hc.1, hc.2⟩]
    rw [fmt.parseLoop, hd, if_neg (by push_cast; omega)]
    have hstep : fmt.wrap64 (fmt.wrap64 a * 10 + ((c : Int) - 48)) =
        fmt.wrap64 (a * 10 + ((c : Int) - 48)) := by
      apply wrap64_congr
      have := wrap64_emod a
      have h64 : (2 : Int) ^ 64 = 18446744073709551616 := by norm_num
      rw [h64] at *
      omega
    rw [hstep, ih (fun x hx => hds x (List.mem_cons_of_mem c hx)) (a * 10 + ((c : Int) - 48))]
    rw [List.foldl_cons]
    rfl

theorem digits_head_is_digit (ds : List Nat) (hne : ds ≠ [])
    (hds : ∀ c ∈ ds, 48 ≤ c ∧ c ≤ 57) :
    fmt.parse_int64 ds 10 = fmt.parseLoop 10 ds 0 := by
  cases ds with
  | nil => exact absurd rfl hne
  | cons c rest =>
    have hc := hds c (List.mem_cons_self c rest)
    rw [parse_int64_cons, if_neg (by omega), if_neg (by omega)]

theorem fmtInt64_pos_shape (n : Int) (h0 : 0 < n) (hle : n ≤ 2 ^ 63) :
    fmt.fmtInt64 n = (fmt.digitsRev n.natAbs).reverse := by
  unfold fmt.fmtInt64
  rw [if_neg (by omega), if_neg (by omega)]
  have hlen : (fmt.digitsRev n.natAbs).length ≤ 19 := by
    apply digitsRev_length_le
    have : (2 : Int) ^ 63 = 9223372036854775808 := by norm_num
    have h10 : (10 : Nat) ^ 19 = 10000000000000000000 := by norm_num
    omega
  rw [foldl_pushCapped_eq_append 21 (fmt.digitsRev n.natAbs).reverse []
    (by simp only [List.length_nil, List.length_reverse]; omega)]
  simp

theorem fmtInt64_neg_shape (n : Int) (h0 : n < 0) (hge : -(2 ^ 63) ≤ n) :
    fmt.fmtInt64 n = 45 :: (fmt.digitsRev n.natAbs).reverse := by
  unfold fmt.fmtInt64
  rw [if_neg (by omega), if_pos h0]
  have hlen : (fmt.digitsRev n.natAbs).length ≤ 19 := by
    apply digitsRev_length_le
    have : (2 : Int) ^ 63 = 9223372036854775808 := by norm_num
    have h10 : (10 : Nat) ^ 19 = 10000000000000000000 := by norm_num
    omega
  have hstart : pushCapped 21 [] 45 = [45] := rfl
  rw [hstart, foldl_pushCapped_eq_append 21 (fmt.digitsRev n.natAbs).reverse [45]
    (by simp only [List.length_cons, List.length_nil, List.length_reverse]; omega)]
  rfl

theorem parse_digitsRev_value (m : Nat) (hm : m ≠ 0) :
    fmt.parseLoop 10 ((fmt.digitsRev m).reverse) 0 = fmt.wrap64 (m : Int) := by
  have h00 : (0 : Int) = fmt.wrap64 0 := (wrap64_eq_self 0 (by norm_num) (by norm_num)).symm
  rw [h00, parseLoop_digits ((fmt.digitsRev m).reverse)
    (fun c hc => digitsRev_mem m c (List.mem_reverse.mp hc)) 0]
  rw [foldl_digits_value m 0]
  norm_num

/-- C4: for every integer representable in the signed 64-bit width,
formatting to decimal and parsing back yields the integer again, the most
negative value included; overflow in the parser follows two-complement
machine arithmetic. -/
theorem C4_parse_format_roundtrip (n : Int) (h1 : -(2 ^ 63) ≤ n) (h2 : n < 2 ^ 63) :
    fmt.parse_int64 (fmt.fmtInt64 n) 10 = n := by
  rcases lt_trichotomy n 0 with hn | hn | hn
  · rw [fmtInt64_neg_shape n hn h1]
    have hm0 : n.natAbs ≠ 0 := by omega
    rw [parse_int64_cons, if_pos rfl, parse_digitsRev_value n.natAbs hm0]
    have hcongr : fmt.wrap64 (-fmt.wrap64 (n.natAbs : Int)) =
        fmt.wrap64 (-(n.natAbs : Int)) := by
      apply wrap64_congr
      have := wrap64_emod (n.natAbs : Int)
      have h64 : (2 : Int) ^ 64 = 18446744073709551616 := by norm_num
      rw [h64] at *
      omega
    rw [hcongr]
    have habs : -(n.natAbs : Int) = n := by omega
    rw [habs]
    exact wrap64_eq_self n h1 h2
  · subst hn
    decide
  · rw [fmtInt64_pos_shape n hn (by omega)]
    have hm0 : n.natAbs ≠ 0 := by omega
    rw [digits_head_is_digit _ (by
        intro hc
        exact digitsRev_ne_nil n.natAbs hm0 (by simpa using hc))
      (fun c hc => digitsRev_mem n.natAbs c (List.mem_reverse.mp hc))]
    rw [parse_digitsRev_value n.natAbs hm0]
    have habs : ((n.natAbs : Int)) = n := by omega
    rw [habs]
    exact wrap64_eq_self n h1 h2

theorem C4_witness :
    (-(2 ^ 63) ≤ (-(2 ^ 63) : Int) ∧ (-(2 ^ 63) : Int) < 2 ^ 63) ∧
    fmt.parse_int64 (fmt.fmtInt64 (-(2 ^ 63))) 10 = -(2 ^ 63) :=
  ⟨⟨by norm_num, by norm_num⟩,
    C4_parse_format_roundtrip (-(2 ^ 63)) (by norm_num) (by norm_num)⟩

end Zuu
